import Mathlib

/-!
Verification of core invariants of the buf schema-management toolchain:
module data tamper-proofing, image building (ordering, diagnostics,
determinism), workspace resolution (lock-file versions, target detection,
dependency-ref deduplication), upload validation, and module read buckets.
-/

namespace BufVerify

/-- A compiled file descriptor: a path together with the descriptors of the
files it imports, mirroring `protoreflect.FileDescriptor` as consumed by
`build_image.go` (a descriptor exposes `Path()` and `Imports()`). -/
inductive FD where
  | node (path : String) (imports : List FD)
deriving Repr

/-- The path of a file descriptor (`fileDescriptor.Path()`). -/
def FD.path : FD → String
  | .node p _ => p

/-- The imported file descriptors (`fileDescriptor.Imports()`). -/
def FD.imports : FD → List FD
  | .node _ l => l

mutual
/-- Decidable equality for `FD`. -/
def FD.decEq : (a b : FD) → Decidable (a = b)
  | .node p l, .node q m =>
    match String.decEq p q with
    | .isFalse h => .isFalse (by intro he; cases he; exact h rfl)
    | .isTrue hp =>
      match FD.decEqList l m with
      | .isTrue hl => .isTrue (by rw [hp, hl])
      | .isFalse h => .isFalse (by intro he; cases he; exact h rfl)

/-- Decidable equality for lists of `FD`. -/
def FD.decEqList : (l m : List FD) → Decidable (l = m)
  | [], [] => .isTrue rfl
  | [], _ :: _ => .isFalse (by simp)
  | _ :: _, [] => .isFalse (by simp)
  | a :: l, b :: m =>
    match FD.decEq a b with
    | .isFalse h => .isFalse (by intro he; cases he; exact h rfl)
    | .isTrue ha =>
      match FD.decEqList l m with
      | .isTrue hl => .isTrue (by rw [ha, hl])
      | .isFalse h => .isFalse (by intro he; cases he; exact h rfl)
end

instance : DecidableEq FD := FD.decEq

/-! ## ModuleData tamper check (`private/bufpkg/bufmodule/module_data.go`)

`newModuleData` wraps `getBucket` and `getDeclaredDepModuleKeys` in
`syncext.OnceValues`, and the digest check in `syncext.OnceValue`.  We embed a
once-cell explicitly: the wrapped computation is a function of its invocation
count (so a hypothetical re-invocation is observable), and the cell stores the
cached result after the first call. -/

/-- A `syncext.OnceValue`-style cell: `count` is how many times the underlying
computation has run, `cached` the memoized result. -/
structure Once (α : Type) where
  count : Nat
  cached : Option α
deriving Repr

/-- A fresh, unevaluated once-cell. -/
def Once.init {α : Type} : Once α := ⟨0, none⟩

/-- Call a once-cell: return the cached result, or run the underlying
computation (indexed by its invocation count) and cache the result. -/
def Once.call {α : Type} (f : Nat → α) (s : Once α) : α × Once α :=
  match s.cached with
  | some a => (a, s)
  | none => (f s.count, ⟨s.count + 1, some (f s.count)⟩)

/-- The underlying functions a `moduleData` is built from in `newModuleData`:
the lazily-loaded bucket and declared-dependency getters, the `ModuleKey`'s
expected digest (`moduleKey.Digest()`), the manifest digest computation
(`getB5Digest`), digest comparison (`DigestEqual`), and the verification-error
constructor.  Each lazily-loaded getter takes its invocation count so that
repeat invocations are distinguishable. -/
structure MDFuncs (Bucket Key Digest E : Type) where
  getBucket : Nat → Except E Bucket
  getDeclaredDepModuleKeys : Nat → Except E (List Key)
  keyDigest : Nat → Except E Digest
  getB5Digest : Bucket → List Key → Except E Digest
  digestEqual : Digest → Digest → Bool
  mismatchError : Digest → Digest → E

/-- The mutable state of one `moduleData` value: the three inner once-cells
and the once-cell guarding `checkDigest`. -/
structure MDState (Bucket Key Digest E : Type) where
  bucketOnce : Once (Except E Bucket)
  depsOnce : Once (Except E (List Key))
  keyDigestOnce : Once (Except E Digest)
  checkOnce : Once (Except E Unit)

variable {Bucket Key Digest E : Type}

/-- The state of a freshly constructed `moduleData`. -/
def MDState.init : MDState Bucket Key Digest E :=
  ⟨Once.init, Once.init, Once.init, Once.init⟩

/-- The body of the `checkDigest` closure in `newModuleData`: load the bucket,
the declared dependency keys and the expected digest, recompute the manifest
digest over them, and compare. -/
def checkDigestBody (F : MDFuncs Bucket Key Digest E) (s : MDState Bucket Key Digest E) :
    Except E Unit × MDState Bucket Key Digest E :=
  let (rb, b1) := Once.call F.getBucket s.bucketOnce
  let s1 := { s with bucketOnce := b1 }
  match rb with
  | .error e => (.error e, s1)
  | .ok bucket =>
    let (rd, d1) := Once.call F.getDeclaredDepModuleKeys s1.depsOnce
    let s2 := { s1 with depsOnce := d1 }
    match rd with
    | .error e => (.error e, s2)
    | .ok deps =>
      let (rk, k1) := Once.call F.keyDigest s2.keyDigestOnce
      let s3 := { s2 with keyDigestOnce := k1 }
      match rk with
      | .error e => (.error e, s3)
      | .ok expected =>
        match F.getB5Digest bucket deps with
        | .error e => (.error e, s3)
        | .ok actual =>
          if F.digestEqual expected actual then (.ok (), s3)
          else (.error (F.mismatchError expected actual), s3)

/-- `moduleData.checkDigest`: the body above memoized by `syncext.OnceValue`. -/
def checkDigest (F : MDFuncs Bucket Key Digest E) (s : MDState Bucket Key Digest E) :
    Except E Unit × MDState Bucket Key Digest E :=
  match s.checkOnce.cached with
  | some r => (r, s)
  | none =>
    let (r, s') := checkDigestBody F s
    (r, { s' with checkOnce := ⟨s.checkOnce.count + 1, some r⟩ })

/-- `moduleData.Bucket()`: run the tamper check, then return the bucket. -/
def bucketAccessor (F : MDFuncs Bucket Key Digest E) (s : MDState Bucket Key Digest E) :
    Except E Bucket × MDState Bucket Key Digest E :=
  match checkDigest F s with
  | (.error e, s') => (.error e, s')
  | (.ok _, s') =>
    let (rb, b1) := Once.call F.getBucket s'.bucketOnce
    (rb, { s' with bucketOnce := b1 })

/-- `moduleData.DeclaredDepModuleKeys()`: run the tamper check, then return
the declared dependency keys. -/
def depsAccessor (F : MDFuncs Bucket Key Digest E) (s : MDState Bucket Key Digest E) :
    Except E (List Key) × MDState Bucket Key Digest E :=
  match checkDigest F s with
  | (.error e, s') => (.error e, s')
  | (.ok _, s') =>
    let (rd, d1) := Once.call F.getDeclaredDepModuleKeys s'.depsOnce
    (rd, { s' with depsOnce := d1 })

/-- One external call on a `moduleData`: either accessor. -/
inductive MDCall where
  | bucket
  | deps
deriving Repr, DecidableEq

/-- The observable result of one accessor call. -/
def MDResult (Bucket Key E : Type) : Type := Except E (Bucket ⊕ List Key)

/-- Dispatch one accessor call. -/
def runMDCall (F : MDFuncs Bucket Key Digest E) (c : MDCall) (s : MDState Bucket Key Digest E) :
    MDResult Bucket Key E × MDState Bucket Key Digest E :=
  match c with
  | .bucket =>
    let (r, s') := bucketAccessor F s
    (r.map Sum.inl, s')
  | .deps =>
    let (r, s') := depsAccessor F s
    (r.map Sum.inr, s')

/-- Run a sequence of accessor calls from a state, collecting results. -/
def runMDCalls (F : MDFuncs Bucket Key Digest E) :
    List MDCall → MDState Bucket Key Digest E →
    List (MDResult Bucket Key E) × MDState Bucket Key Digest E
  | [], s => ([], s)
  | c :: cs, s =>
    let (r, s') := runMDCall F c s
    let (rs, s'') := runMDCalls F cs s'
    (r :: rs, s'')

/-- In a failed state (the check's once-cell caches an error), any accessor
call returns exactly that error and leaves the state untouched. -/
theorem runMDCall_failed (F : MDFuncs Bucket Key Digest E) (c : MDCall) (e : E)
    (s : MDState Bucket Key Digest E) (h : s.checkOnce.cached = some (Except.error e)) :
    runMDCall F c s = (Except.error e, s) := by
  cases c <;>
    simp [runMDCall, bucketAccessor, depsAccessor, checkDigest, h, Except.map]

/-- In a failed state, a whole sequence of accessor calls returns the cached
error each time and leaves the state untouched. -/
theorem runMDCalls_failed (F : MDFuncs Bucket Key Digest E) (e : E)
    (s : MDState Bucket Key Digest E) (h : s.checkOnce.cached = some (Except.error e)) :
    ∀ cs : List MDCall,
      runMDCalls F cs s = (List.replicate cs.length (Except.error e), s) := by
  intro cs
  induction cs with
  | nil => simp [runMDCalls]
  | cons c cs ih =>
    simp [runMDCalls, runMDCall_failed F c e s h, ih, List.replicate]

/-- The first accessor call on a fresh `moduleData` whose digest check fails
returns the check's error and caches it. -/
theorem runMDCall_init_failed (F : MDFuncs Bucket Key Digest E) (c : MDCall) (e : E)
    (h : (checkDigestBody F (MDState.init)).1 = Except.error e) :
    ∃ s' : MDState Bucket Key Digest E,
      runMDCall F c (MDState.init) = (Except.error e, s') ∧
      s'.checkOnce = ⟨1, some (Except.error e)⟩ := by
  have hinit : (MDState.init : MDState Bucket Key Digest E).checkOnce.cached = none := rfl
  have hcd : checkDigest F (MDState.init) =
      (Except.error e,
        { (checkDigestBody F (MDState.init)).2 with
            checkOnce := ⟨1, some (Except.error e)⟩ }) := by
    simp only [checkDigest, hinit]
    rw [show (checkDigestBody F (MDState.init)) =
        (Except.error e, (checkDigestBody F (MDState.init)).2) from
      Prod.ext h rfl]
    simp [MDState.init, Once.init]
  refine ⟨{ (checkDigestBody F (MDState.init)).2 with
      checkOnce := ⟨1, some (Except.error e)⟩ }, ?_, rfl⟩
  cases c <;> simp [runMDCall, bucketAccessor, depsAccessor, hcd, Except.map]

/-- C1: for every `ModuleData`, the tamper check (recomputing the manifest
digest over the bucket and declared dependency keys and comparing it to the
`ModuleKey`'s expected digest) runs before either `Bucket()` or
`DeclaredDepModuleKeys()` returns successfully — a successful accessor result
is only possible if the check body succeeds — and once the check fails it
fails permanently and deterministically: every call in any sequence of
accessor calls returns the very same error, and the check body is never
retried (its once-cell runs at most once). -/
theorem moduleData_tamper_check (F : MDFuncs Bucket Key Digest E) (calls : List MDCall) :
    (∀ r ∈ (runMDCalls F calls (MDState.init)).1, (∃ v, r = Except.ok v) →
        (checkDigestBody F (MDState.init)).1 = Except.ok ()) ∧
    (∀ e, (checkDigestBody F (MDState.init)).1 = Except.error e →
        (runMDCalls F calls (MDState.init)).1 =
          List.replicate calls.length (Except.error e) ∧
        (runMDCalls F calls (MDState.init)).2.checkOnce.count ≤ 1) := by
  have key : ∀ e, (checkDigestBody F (MDState.init)).1 = Except.error e →
      (runMDCalls F calls (MDState.init)).1 =
        List.replicate calls.length (Except.error e) ∧
      (runMDCalls F calls (MDState.init)).2.checkOnce.count ≤ 1 := by
    intro e he
    cases calls with
    | nil => exact ⟨rfl, by simp [runMDCalls, MDState.init, Once.init]⟩
    | cons c cs =>
      obtain ⟨s', hrun, hcheck⟩ := runMDCall_init_failed F c e he
      have hcached : s'.checkOnce.cached = some (Except.error e) := by
        rw [hcheck]
      have hrest := runMDCalls_failed F e s' hcached cs
      constructor
      · simp [runMDCalls, hrun, hrest, List.replicate]
      · simp [runMDCalls, hrun, hrest, hcheck]
  refine ⟨?_, key⟩
  intro r hr hok
  cases hbody : (checkDigestBody F (MDState.init)).1 with
  | ok u => cases u; rfl
  | error e =>
    obtain ⟨hres, _⟩ := key e hbody
    rw [hres] at hr
    obtain ⟨v, hv⟩ := hok
    rw [hv] at hr
    exact absurd (List.eq_of_mem_replicate hr) (by simp)

/-- Concrete functions for the tamper-check witness: the expected digest is
`1`, the recomputed digest is `2`, so the check fails. -/
def tamperFuncs : MDFuncs Nat Nat Nat String where
  getBucket := fun _ => .ok 0
  getDeclaredDepModuleKeys := fun _ => .ok []
  keyDigest := fun _ => .ok 1
  getB5Digest := fun _ _ => .ok 2
  digestEqual := fun a b => a == b
  mismatchError := fun _ _ => "verification failed"

/-- Witness for `moduleData_tamper_check` at a concrete failing instance. -/
theorem moduleData_tamper_check_witness :
    (runMDCalls tamperFuncs [MDCall.bucket, MDCall.deps, MDCall.bucket]
        (MDState.init)).1 =
      List.replicate 3 (Except.error "verification failed") ∧
    (runMDCalls tamperFuncs [MDCall.bucket, MDCall.deps, MDCall.bucket]
        (MDState.init)).2.checkOnce.count ≤ 1 :=
  (moduleData_tamper_check tamperFuncs
      [MDCall.bucket, MDCall.deps, MDCall.bucket]).2 "verification failed" rfl

/-! ## Image building (`private/bufpkg/bufimage/build_image.go`)

`getImage` walks the sorted file descriptors in post-order over the import
graph with an `alreadySeen` path set, emitting each file after its imports;
`checkAndSortFileDescriptors` re-sorts compiler output into requested-path
order; `getBuildResult` turns compiler outcomes into descriptors,
warning-derived maps, annotations, or an error. -/

/-- One entry of the final Image: the file descriptor plus the metadata
computed by `getImageFilesRec` (`NewImageFile` arguments). -/
structure ImageFile where
  fd : FD
  isImport : Bool
  synUnspecified : Bool
  unusedDepIndexes : List Nat
deriving Repr, DecidableEq

/-- The imports of a descriptor are structurally smaller than it. -/
theorem FD.sizeOf_imports_lt (fd : FD) : sizeOf fd.imports < sizeOf fd := by
  cases fd with
  | node p l => simp [FD.imports]

mutual
/-- `getImageFilesRec`: skip an already-seen path; otherwise mark the path
seen, recurse into the imports in order (collecting unused-dependency
indexes), then append the file itself. -/
def getImageFilesRec (sf : List String) (um : List (String × List String))
    (ni : List String) (fd : FD) (seen : List String) (acc : List ImageFile) :
    List String × List ImageFile :=
  if fd.path ∈ seen then (seen, acc)
  else
    let seen1 := fd.path :: seen
    let out := getImageFilesRecList sf um ni fd.imports seen1 acc
    let unusedIdx : List Nat :=
      match um.find? (fun q => q.1 == fd.path) with
      | none => []
      | some q => (fd.imports.enum.filter (fun z => decide (z.2.path ∈ q.2))).map (·.1)
    (out.1,
      out.2 ++ [⟨fd, !decide (fd.path ∈ ni), decide (fd.path ∈ sf), unusedIdx⟩])
  termination_by sizeOf fd
  decreasing_by exact FD.sizeOf_imports_lt fd

/-- The loop over a list of file descriptors in `getImage` (and over the
imports inside `getImageFilesRec`). -/
def getImageFilesRecList (sf : List String) (um : List (String × List String))
    (ni : List String) (fds : List FD) (seen : List String) (acc : List ImageFile) :
    List String × List ImageFile :=
  match fds with
  | [] => (seen, acc)
  | f :: rest =>
    let out := getImageFilesRec sf um ni f seen acc
    getImageFilesRecList sf um ni rest out.1 out.2
  termination_by sizeOf fds
  decreasing_by
    all_goals simp
    all_goals omega
end

/-- `getImage`: the non-import filename set is exactly the paths of the
sorted descriptors; then walk each descriptor with a shared seen-set. -/
def getImage (sf : List String) (um : List (String × List String))
    (sortedFDs : List FD) : List ImageFile :=
  (getImageFilesRecList sf um (sortedFDs.map FD.path) sortedFDs [] []).2

/-- The map-building loop of `checkAndSortFileDescriptors`: error on an empty
or duplicate descriptor name, else record the name. -/
def buildNameToFD : List FD → List (String × FD) → Except String (List (String × FD))
  | [], m => .ok m
  | fd :: rest, m =>
    if fd.path = "" then .error "no name on FileDescriptor"
    else if (m.find? (fun q => q.1 == fd.path)).isSome then
      .error ("duplicate FileDescriptor: " ++ fd.path)
    else buildNameToFD rest (m ++ [(fd.path, fd)])

/-- The output loop of `checkAndSortFileDescriptors`: look each requested
path up in the name map, in request order. -/
def sortLoop (m : List (String × FD)) : List String → Except String (List FD)
  | [] => .ok []
  | p :: rest =>
    match m.find? (fun q => q.1 == p) with
    | some q =>
      match sortLoop m rest with
      | .ok out => .ok (q.2 :: out)
      | .error e => .error e
    | none => .error ("no FileDescriptor for rootRelFilePath: " ++ p)

/-- `checkAndSortFileDescriptors`: check counts, build the name map, then
emit the descriptors in the caller-requested path order. -/
def checkAndSortFileDescriptors (fds : List FD) (paths : List String) :
    Except String (List FD) :=
  if fds.length ≠ paths.length then
    .error "rootRelFilePath length was not equal to FileDescriptor length"
  else
    match buildNameToFD fds [] with
    | .error e => .error e
    | .ok m => sortLoop m paths

mutual
/-- All descriptors reachable from one descriptor, itself included. -/
def FD.allNodes : FD → List FD
  | .node p l => .node p l :: allNodesList l

/-- All descriptors reachable from a list of descriptors. -/
def allNodesList : List FD → List FD
  | [] => []
  | f :: rest => f.allNodes ++ allNodesList rest
end

/-- A descriptor forest is path-consistent when equal paths identify equal
descriptors — the situation guaranteed by the compiler, where each path
resolves to a unique compiled file. -/
def Consistent (R : List FD) : Prop :=
  ∀ x ∈ allNodesList R, ∀ y ∈ allNodesList R, x.path = y.path → x = y

/-- The path sequence of an image. -/
def pathsOf (l : List ImageFile) : List String := l.map (fun e => e.fd.path)

/-- Every file's imports appear strictly before the file in the sequence. -/
def OrdBefore (img : List ImageFile) : Prop :=
  ∀ pre e post, img = pre ++ e :: post → ∀ imp ∈ e.fd.imports, imp.path ∈ pathsOf pre

/-- Membership in the reachable set of a list of descriptors. -/
theorem mem_allNodesList_iff (x : FD) (fds : List FD) :
    x ∈ allNodesList fds ↔ ∃ f ∈ fds, x ∈ f.allNodes := by
  induction fds with
  | nil => simp [allNodesList]
  | cons f rest ih => simp [allNodesList, ih]

/-- Every descriptor is in its own reachable set. -/
theorem FD.self_mem_allNodes (fd : FD) : fd ∈ fd.allNodes := by
  cases fd with
  | node p l => rw [FD.allNodes]; exact List.mem_cons_self _ _

/-- A direct import is in the reachable set. -/
theorem mem_allNodes_of_mem_imports {c fd : FD} (h : c ∈ fd.imports) :
    c ∈ fd.allNodes := by
  cases fd with
  | node p l =>
    rw [FD.allNodes]
    exact List.mem_cons_of_mem _
      ((mem_allNodesList_iff c l).2 ⟨c, h, c.self_mem_allNodes⟩)

/-- A direct import is structurally smaller. -/
theorem sizeOf_lt_of_mem_imports {c fd : FD} (h : c ∈ fd.imports) :
    sizeOf c < sizeOf fd := by
  cases fd with
  | node p l =>
    simp only [FD.imports] at h
    have := List.sizeOf_lt_of_mem h
    simp only [FD.node.sizeOf_spec]
    omega

mutual
/-- Reachability is transitive. -/
theorem mem_allNodes_trans (x y z : FD) (hxy : x ∈ y.allNodes)
    (hyz : y ∈ z.allNodes) : x ∈ z.allNodes := by
  cases z with
  | node p l =>
    rw [FD.allNodes] at hyz ⊢
    rcases List.mem_cons.1 hyz with h | h
    · subst h; rw [FD.allNodes] at hxy; exact hxy
    · exact List.mem_cons_of_mem _ (mem_allNodesList_trans x y l hxy h)
  termination_by sizeOf z

/-- Reachability from a list is transitive. -/
theorem mem_allNodesList_trans (x y : FD) (fds : List FD) (hxy : x ∈ y.allNodes)
    (hyz : y ∈ allNodesList fds) : x ∈ allNodesList fds := by
  cases fds with
  | nil => simp [allNodesList] at hyz
  | cons f rest =>
    rw [allNodesList] at hyz ⊢
    rcases List.mem_append.1 hyz with h | h
    · exact List.mem_append_left _ (mem_allNodes_trans x y f hxy h)
    · exact List.mem_append_right _ (mem_allNodesList_trans x y rest hxy h)
  termination_by sizeOf fds
end

mutual
/-- A reachable descriptor is structurally no larger. -/
theorem sizeOf_le_of_mem_allNodes (x fd : FD) (h : x ∈ fd.allNodes) :
    sizeOf x ≤ sizeOf fd := by
  cases fd with
  | node p l =>
    rw [FD.allNodes] at h
    rcases List.mem_cons.1 h with h | h
    · subst h; exact le_refl _
    · have := sizeOf_lt_of_mem_allNodesList x l h
      simp only [FD.node.sizeOf_spec]
      omega
  termination_by sizeOf fd

/-- A descriptor reachable from a list is structurally smaller than the list. -/
theorem sizeOf_lt_of_mem_allNodesList (x : FD) (fds : List FD)
    (h : x ∈ allNodesList fds) : sizeOf x < sizeOf fds := by
  cases fds with
  | nil => simp [allNodesList] at h
  | cons f rest =>
    rw [allNodesList] at h
    rcases List.mem_append.1 h with h | h
    · have := sizeOf_le_of_mem_allNodes x f h
      simp only [List.cons.sizeOf_spec]
      omega
    · have := sizeOf_lt_of_mem_allNodesList x rest h
      simp only [List.cons.sizeOf_spec]
      omega
  termination_by sizeOf fds
end

/-- Appending a file whose imports' paths all occur in the current sequence
preserves the ordering invariant. -/
theorem ordBefore_append_single (l : List ImageFile) (E : ImageFile)
    (hl : OrdBefore l) (hE : ∀ imp ∈ E.fd.imports, imp.path ∈ pathsOf l) :
    OrdBefore (l ++ [E]) := by
  intro pre e post heq imp himp
  rcases List.eq_nil_or_concat post with hpost | ⟨q, x, hpost⟩
  · subst hpost
    have h2 := List.append_inj' heq (by simp)
    obtain ⟨hpre, he⟩ := h2
    have he' : E = e := by simpa using he
    subst hpre
    rw [← he'] at himp
    exact hE imp himp
  · subst hpost
    have heq' : l ++ [E] = (pre ++ e :: q) ++ [x] := by
      rw [heq]; simp
    have h2 := List.append_inj' heq' (by simp)
    obtain ⟨hl', _⟩ := h2
    exact hl pre e q hl' imp himp

/-- Invariant on the traversal state of `getImageFilesRec`: relative to the
ancestor stack `anc`, every seen path is either already emitted or the path
of an ancestor; emitted paths are seen, unique, ordered after their imports,
and flagged by (non-)membership in the non-import set. -/
structure RecPre (ni : List String) (anc : List FD) (seen : List String)
    (acc : List ImageFile) : Prop where
  seenChar : ∀ p ∈ seen, p ∈ pathsOf acc ∨ p ∈ anc.map FD.path
  accSeen : ∀ q ∈ pathsOf acc, q ∈ seen
  nodup : (pathsOf acc).Nodup
  ord : OrdBefore acc
  flags : ∀ e ∈ acc, e.isImport = !decide (e.fd.path ∈ ni)

/-- What one traversal step guarantees: the invariant is re-established, the
accumulator only grows, seen paths only grow, and freshly emitted paths were
not previously seen. -/
structure RecPost (ni : List String) (anc : List FD) (seen : List String)
    (acc : List ImageFile) (seen' : List String) (acc' : List ImageFile) : Prop where
  ext : ∃ d, acc' = acc ++ d
  seenChar : ∀ p ∈ seen', p ∈ pathsOf acc' ∨ p ∈ anc.map FD.path
  accSeen : ∀ q ∈ pathsOf acc', q ∈ seen'
  nodup : (pathsOf acc').Nodup
  ord : OrdBefore acc'
  flags : ∀ e ∈ acc', e.isImport = !decide (e.fd.path ∈ ni)
  seenMono : ∀ p ∈ seen, p ∈ seen'
  fresh : ∀ q ∈ pathsOf acc', q ∈ pathsOf acc ∨ q ∉ seen

mutual
/-- Specification of `getImageFilesRec` on one descriptor. -/
theorem getImageFilesRec_spec (sf : List String) (um : List (String × List String))
    (ni : List String) (R anc : List FD) (fd : FD) (seen : List String)
    (acc : List ImageFile)
    (hcons : Consistent R) (hfd : fd ∈ allNodesList R)
    (hanc : ∀ a ∈ anc, a ∈ allNodesList R)
    (hstrict : ∀ a ∈ anc, fd ∈ a.allNodes ∧ sizeOf fd < sizeOf a)
    (hpre : RecPre ni anc seen acc) :
    RecPost ni anc seen acc (getImageFilesRec sf um ni fd seen acc).1
      (getImageFilesRec sf um ni fd seen acc).2 ∧
    fd.path ∈ (getImageFilesRec sf um ni fd seen acc).1 := by
  by_cases hmem : fd.path ∈ seen
  · have hout : getImageFilesRec sf um ni fd seen acc = (seen, acc) := by
      rw [getImageFilesRec, if_pos hmem]
    rw [hout]
    exact ⟨⟨⟨[], by simp⟩, hpre.seenChar, hpre.accSeen, hpre.nodup, hpre.ord,
      hpre.flags, fun p hp => hp, fun q hq => Or.inl hq⟩, hmem⟩
  · have hout : ∃ u, getImageFilesRec sf um ni fd seen acc =
        ((getImageFilesRecList sf um ni fd.imports (fd.path :: seen) acc).1,
         (getImageFilesRecList sf um ni fd.imports (fd.path :: seen) acc).2 ++
           [⟨fd, !decide (fd.path ∈ ni), decide (fd.path ∈ sf), u⟩]) := by
      rw [getImageFilesRec, if_neg hmem]
      exact ⟨_, rfl⟩
    obtain ⟨u, hout⟩ := hout
    have hmem' : ∀ c ∈ fd.imports, c ∈ allNodesList R ∧
        ∀ a ∈ fd :: anc, c ∈ a.allNodes ∧ sizeOf c < sizeOf a := by
      intro c hc
      have hcfd : c ∈ fd.allNodes := mem_allNodes_of_mem_imports hc
      have hcsz : sizeOf c < sizeOf fd := sizeOf_lt_of_mem_imports hc
      refine ⟨mem_allNodesList_trans c fd R hcfd hfd, ?_⟩
      intro a ha
      rcases List.mem_cons.1 ha with ha | ha
      · subst ha; exact ⟨hcfd, hcsz⟩
      · obtain ⟨hfa, hsa⟩ := hstrict a ha
        exact ⟨mem_allNodes_trans c fd a hcfd hfa, lt_trans hcsz hsa⟩
    have hanc' : ∀ a ∈ fd :: anc, a ∈ allNodesList R := by
      intro a ha
      rcases List.mem_cons.1 ha with ha | ha
      · subst ha; exact hfd
      · exact hanc a ha
    have hpre' : RecPre ni (fd :: anc) (fd.path :: seen) acc := by
      refine ⟨?_, ?_, hpre.nodup, hpre.ord, hpre.flags⟩
      · intro p hp
        rcases List.mem_cons.1 hp with hp | hp
        · subst hp; exact Or.inr (by simp)
        · rcases hpre.seenChar p hp with h | h
          · exact Or.inl h
          · exact Or.inr (by simp [List.mem_map] at h ⊢; tauto)
      · intro q hq
        exact List.mem_cons_of_mem _ (hpre.accSeen q hq)
    obtain ⟨post1, himports⟩ := getImageFilesRecList_spec sf um ni R (fd :: anc)
      fd.imports (fd.path :: seen) acc hcons hmem' hanc' hpre'
    set L := getImageFilesRecList sf um ni fd.imports (fd.path :: seen) acc with hL
    have hfdL2 : fd.path ∉ pathsOf L.2 := by
      intro hin
      rcases post1.fresh _ hin with h | h
      · exact hmem (hpre.accSeen _ h)
      · exact h (List.mem_cons_self _ _)
    have hfdinL1 : fd.path ∈ L.1 := post1.seenMono _ (List.mem_cons_self _ _)
    have hEimports : ∀ imp ∈ fd.imports, imp.path ∈ pathsOf L.2 := by
      intro imp himp
      have himpL1 : imp.path ∈ L.1 := himports imp himp
      rcases post1.seenChar _ himpL1 with h | h
      · exact h
      · exfalso
        rw [List.mem_map] at h
        obtain ⟨a, ha, hap⟩ := h
        have himpR : imp ∈ allNodesList R :=
          mem_allNodesList_trans imp fd R (mem_allNodes_of_mem_imports himp) hfd
        have haR : a ∈ allNodesList R := hanc' a ha
        have heq : imp = a := hcons imp himpR a haR hap.symm
        have hsz : sizeOf imp < sizeOf a := by
          rcases List.mem_cons.1 ha with ha' | ha'
          · subst ha'; exact sizeOf_lt_of_mem_imports himp
          · exact lt_trans (sizeOf_lt_of_mem_imports himp) (hstrict a ha').2
        rw [heq] at hsz
        exact lt_irrefl _ hsz
    have hpaths : pathsOf (L.2 ++ [⟨fd, !decide (fd.path ∈ ni),
        decide (fd.path ∈ sf), u⟩]) = pathsOf L.2 ++ [fd.path] := by
      simp [pathsOf]
    rw [hout]
    show RecPost ni anc seen acc L.1
        (L.2 ++ [⟨fd, !decide (fd.path ∈ ni), decide (fd.path ∈ sf), u⟩]) ∧
      fd.path ∈ L.1
    constructor
    · refine ⟨?_, ?_, ?_, ?_, ?_, ?_, ?_, ?_⟩
      · obtain ⟨d, hd⟩ := post1.ext
        exact ⟨d ++ [⟨fd, !decide (fd.path ∈ ni), decide (fd.path ∈ sf), u⟩],
          by simp [hd]⟩
      · intro p hp
        rcases post1.seenChar p hp with h | h
        · refine Or.inl ?_
          rw [hpaths]
          exact List.mem_append_left _ h
        · rw [List.mem_map] at h
          obtain ⟨a, ha, hap⟩ := h
          rcases List.mem_cons.1 ha with ha' | ha'
          · subst ha'
            refine Or.inl ?_
            rw [hpaths, ← hap]
            exact List.mem_append_right _ (List.mem_singleton_self _)
          · exact Or.inr (List.mem_map.2 ⟨a, ha', hap⟩)
      · intro q hq
        rw [hpaths] at hq
        rcases List.mem_append.1 hq with hq | hq
        · exact post1.accSeen q hq
        · rw [List.mem_singleton] at hq
          rw [hq]
          exact hfdinL1
      · rw [hpaths, List.nodup_append]
        refine ⟨post1.nodup, List.nodup_singleton _, ?_⟩
        intro a ha hb
        rw [List.mem_singleton] at hb
        rw [hb] at ha
        exact hfdL2 ha
      · exact ordBefore_append_single L.2 _ post1.ord hEimports
      · intro e he
        rcases List.mem_append.1 he with he | he
        · exact post1.flags e he
        · rw [List.mem_singleton] at he
          rw [he]
      · intro p hp
        exact post1.seenMono p (List.mem_cons_of_mem _ hp)
      · intro q hq
        rw [hpaths] at hq
        rcases List.mem_append.1 hq with hq | hq
        · rcases post1.fresh q hq with h | h
          · exact Or.inl h
          · exact Or.inr (fun hs => h (List.mem_cons_of_mem _ hs))
        · rw [List.mem_singleton] at hq
          rw [hq]
          exact Or.inr hmem
    · exact hfdinL1
  termination_by sizeOf fd
  decreasing_by exact FD.sizeOf_imports_lt fd

/-- Specification of the descriptor-list loop of the traversal. -/
theorem getImageFilesRecList_spec (sf : List String) (um : List (String × List String))
    (ni : List String) (R anc : List FD) (fds : List FD) (seen : List String)
    (acc : List ImageFile)
    (hcons : Consistent R)
    (hmem : ∀ c ∈ fds, c ∈ allNodesList R ∧
      ∀ a ∈ anc, c ∈ a.allNodes ∧ sizeOf c < sizeOf a)
    (hanc : ∀ a ∈ anc, a ∈ allNodesList R)
    (hpre : RecPre ni anc seen acc) :
    RecPost ni anc seen acc (getImageFilesRecList sf um ni fds seen acc).1
      (getImageFilesRecList sf um ni fds seen acc).2 ∧
    ∀ c ∈ fds, c.path ∈ (getImageFilesRecList sf um ni fds seen acc).1 :=
  match fds, hmem with
  | [], _ => by
    have hout : getImageFilesRecList sf um ni [] seen acc = (seen, acc) := by
      rw [getImageFilesRecList]
    rw [hout]
    exact ⟨⟨⟨[], by simp⟩, hpre.seenChar, hpre.accSeen, hpre.nodup, hpre.ord,
      hpre.flags, fun p hp => hp, fun q hq => Or.inl hq⟩, by simp⟩
  | f :: rest, hmem => by
    have hout : getImageFilesRecList sf um ni (f :: rest) seen acc =
        getImageFilesRecList sf um ni rest (getImageFilesRec sf um ni f seen acc).1
          (getImageFilesRec sf um ni f seen acc).2 := by
      rw [getImageFilesRecList]
    obtain ⟨hf1, hf2⟩ := hmem f (List.mem_cons_self _ _)
    obtain ⟨post1, hfpath⟩ := getImageFilesRec_spec sf um ni R anc f seen acc
      hcons hf1 hanc hf2 hpre
    set M := getImageFilesRec sf um ni f seen acc with hM
    have hpre2 : RecPre ni anc M.1 M.2 :=
      ⟨post1.seenChar, post1.accSeen, post1.nodup, post1.ord, post1.flags⟩
    obtain ⟨post2, hrest⟩ := getImageFilesRecList_spec sf um ni R anc rest M.1 M.2
      hcons (fun c hc => hmem c (List.mem_cons_of_mem _ hc)) hanc hpre2
    rw [hout]
    constructor
    · refine ⟨?_, post2.seenChar, post2.accSeen, post2.nodup, post2.ord,
        post2.flags, ?_, ?_⟩
      · obtain ⟨d1, hd1⟩ := post1.ext
        obtain ⟨d2, hd2⟩ := post2.ext
        exact ⟨d1 ++ d2, by rw [hd2, hd1, List.append_assoc]⟩
      · intro p hp
        exact post2.seenMono p (post1.seenMono p hp)
      · intro q hq
        rcases post2.fresh q hq with h | h
        · rcases post1.fresh q h with h' | h'
          · exact Or.inl h'
          · exact Or.inr h'
        · exact Or.inr (fun hs => h (post1.seenMono q hs))
    · intro c hc
      rcases List.mem_cons.1 hc with hc | hc
      · subst hc
        exact post2.seenMono _ hfpath
      · exact hrest c hc
  termination_by sizeOf fds
  decreasing_by
    all_goals simp
    all_goals omega
end

/-! ### Compiler diagnostics and `getBuildResult` / `buildImage` -/

/-- The cause carried by one reported `ErrorWithPos`: a missing syntax
declaration (`parser.ErrNoSyntax`), an unused import
(`linker.ErrorUnusedImport`), or any other error message. -/
inductive WarnCause where
  | noSyn
  | unusedImp (dep : String)
  | other (msg : String)
deriving Repr, DecidableEq

/-- Render the wrapped error of an `ErrorWithPos` (`Unwrap().Error()`). -/
def WarnCause.render : WarnCause → String
  | .noSyn => "no syntax specified"
  | .unusedImp dep => "import " ++ dep ++ " is unused"
  | .other msg => msg

/-- A `reporter.ErrorWithPos`: filename, 1-based position, wrapped cause. -/
structure ErrPos where
  filename : String
  line : Nat
  col : Nat
  cause : WarnCause
deriving Repr, DecidableEq

/-- A `bufanalysis.FileAnnotation` as built by `getFileAnnot`. -/
structure FileAnn where
  path : Option String
  startLine : Nat
  startCol : Nat
  endLine : Nat
  endCol : Nat
  typeString : String
  message : String
deriving Repr, DecidableEq

/-- `getFileAnnot`: normalize the reported filename when present, take
the 1-based line/column when positive (start = end), type `COMPILE`. -/
def getFileAnnot (norm : String → Except String String) (e : ErrPos) :
    Except String FileAnn :=
  let message := e.cause.render
  let startLine := if e.line > 0 then e.line else 0
  let startCol := if e.col > 0 then e.col else 0
  if e.filename ≠ "" then
    match norm e.filename with
    | .error er => .error er
    | .ok p => .ok ⟨some p, startLine, startCol, startLine, startCol, "COMPILE", message⟩
  else .ok ⟨none, startLine, startCol, startLine, startCol, "COMPILE", message⟩

/-- `getFileAnnotations`: convert each reported error in order. -/
def getFileAnnotations (norm : String → Except String String) :
    List ErrPos → Except String (List FileAnn)
  | [] => .ok []
  | e :: rest =>
    match getFileAnnot norm e with
    | .error er => .error er
    | .ok a =>
      match getFileAnnotations norm rest with
      | .error er => .error er
      | .ok as => .ok (a :: as)

/-- Sort key for annotations. Modelled from the spec:
`bufanalysis.DeduplicateAndSortFileAnnotations` is outside the core sources;
the spec only requires a deterministic sorted, deduplicated list. -/
def FileAnn.sortKey (a : FileAnn) : String :=
  a.path.getD "" ++ ":" ++ toString a.startLine ++ ":" ++ toString a.startCol ++
    ":" ++ a.typeString ++ ":" ++ a.message

/-- Comparison used to order annotations. -/
def annLE (a b : FileAnn) : Prop := a.sortKey ≤ b.sortKey

instance : DecidableRel annLE := fun a b => by
  unfold annLE; infer_instance

/-- Modelled from the spec: `DeduplicateAndSortFileAnnotations` sorts the
annotations and removes duplicates. -/
def dedupSortFileAnns (l : List FileAnn) : List FileAnn :=
  (List.insertionSort annLE l).dedup

/-- The `compiler.Compile` error outcome: `reporter.ErrInvalidSource`, a bare
`reporter.ErrorWithPos`, or any other error. -/
inductive CompileErr where
  | invalidSource
  | withPos (e : ErrPos)
  | other (msg : String)
deriving Repr, DecidableEq

/-- One invocation of the compiler: its returned error (if any), the compiled
files, and the reporter's collected hard errors and warnings. -/
structure CompilerRun where
  result : Option CompileErr
  compiledFiles : List FD
  errorsWithPos : List ErrPos
  warningsWithPos : List ErrPos

/-- `buildResult` as in `build_image.go`. -/
structure BuildResult where
  fileDescriptors : List FD
  synFiles : List String
  unusedMap : List (String × List String)
  fileAnns : List FileAnn
  err : Option String

/-- `maybeAddSyntaxUnspecified`: record the filename of a missing-syntax
warning. -/
def maybeAddSynUnspecified (s : List String) (w : ErrPos) : List String :=
  match w.cause with
  | .noSyn => s ++ [w.filename]
  | _ => s

/-- `maybeAddUnusedImport`: record the unused dependency under the warning's
filename. -/
def maybeAddUnusedImport (m : List (String × List String)) (w : ErrPos) :
    List (String × List String) :=
  match w.cause with
  | .unusedImp dep =>
    if (m.find? (fun q => q.1 == w.filename)).isSome then
      m.map (fun q => if q.1 = w.filename then (q.1, q.2 ++ [dep]) else q)
    else m ++ [(w.filename, [dep])]
  | _ => m

/-- The warning-processing loop of `getBuildResult`. -/
def processWarnings (ws : List ErrPos) : List String × List (String × List String) :=
  ws.foldl (fun acc w => (maybeAddSynUnspecified acc.1 w, maybeAddUnusedImport acc.2 w))
    ([], [])

/-- The per-index path verification loop after a clean compile. -/
def checkPathsLoop : List FD → List String → Option String
  | fd :: fds, p :: ps =>
    if fd.path ≠ p then
      some ("expected fileDescriptor name " ++ fd.path ++ " to be a equal to " ++ p)
    else checkPathsLoop fds ps
  | _, _ => none

/-- `getBuildResult`: dispatch on the compiler outcome.  Hard diagnostics
become annotations with no error; defensive checks and non-diagnostic
failures become errors; a clean compile yields the verified descriptors plus
the warning-derived maps. -/
def getBuildResult (norm : String → Except String String) (paths : List String)
    (co : CompilerRun) : BuildResult :=
  match co.result with
  | some .invalidSource =>
    if co.errorsWithPos.isEmpty then
      ⟨[], [], [], [], some "got invalid source error from parse but no errors reported"⟩
    else
      match getFileAnnotations norm co.errorsWithPos with
      | .error e => ⟨[], [], [], [], some e⟩
      | .ok anns => ⟨[], [], [], anns, none⟩
  | some (.withPos e) =>
    match getFileAnnotations norm [e] with
    | .error er => ⟨[], [], [], [], some er⟩
    | .ok anns => ⟨[], [], [], anns, none⟩
  | some (.other m) => ⟨[], [], [], [], some m⟩
  | none =>
    if !co.errorsWithPos.isEmpty then
      ⟨[], [], [], [], some "got no error from parse but errors reported"⟩
    else if co.compiledFiles.length ≠ paths.length then
      ⟨[], [], [], [], some "expected FileDescriptors to be of a different length"⟩
    else
      match checkPathsLoop co.compiledFiles paths with
      | some er => ⟨[], [], [], [], some er⟩
      | none =>
        let w := processWarnings co.warningsWithPos
        ⟨co.compiledFiles, w.1, w.2, [], none⟩

/-- `buildImage`: the self-containedness system check, the no-input-files
user error, then the compile outcome: a top-level error, a non-empty
deduplicated annotation list with no error, or the built image. -/
def buildImage (norm : String → Except String String) (selfContained : Bool)
    (targetPaths : List String) (co : CompilerRun) :
    Option (List ImageFile) × List FileAnn × Option String :=
  if !selfContained then
    (none, [], some "syserror: passed a ModuleReadBucket to BuildImage that was not expected to be self-contained")
  else if targetPaths.isEmpty then (none, [], some "no input files specified")
  else
    let br := getBuildResult norm targetPaths co
    match br.err with
    | some e => (none, [], some e)
    | none =>
      if !br.fileAnns.isEmpty then (none, dedupSortFileAnns br.fileAnns, none)
      else
        match checkAndSortFileDescriptors br.fileDescriptors targetPaths with
        | .error e => (none, [], some e)
        | .ok sorted => (some (getImage br.synFiles br.unusedMap sorted), [], none)

/-- The entries of a successfully built name map are exactly the initial
entries plus one `(path, descriptor)` pair per input descriptor. -/
theorem buildNameToFD_mem : ∀ (fds : List FD) (m m' : List (String × FD)),
    buildNameToFD fds m = .ok m' →
    ∀ q, q ∈ m' ↔ q ∈ m ∨ ∃ c ∈ fds, q = (c.path, c) := by
  intro fds
  induction fds with
  | nil =>
    intro m m' h q
    rw [buildNameToFD] at h
    cases h
    simp
  | cons fd rest ih =>
    intro m m' h q
    rw [buildNameToFD] at h
    by_cases hfp : fd.path = ""
    · simp [hfp] at h
    · rw [if_neg hfp] at h
      by_cases hfind : (m.find? (fun q => q.1 == fd.path)).isSome
      · simp [hfind] at h
      · rw [if_neg hfind] at h
        rw [ih _ _ h q]
        simp only [List.mem_append, List.mem_cons, List.not_mem_nil, or_false]
        constructor
        · rintro ((hq | hq) | ⟨c, hc, hq⟩)
          · exact Or.inl hq
          · exact Or.inr ⟨fd, Or.inl rfl, hq⟩
          · exact Or.inr ⟨c, Or.inr hc, hq⟩
        · rintro (hq | ⟨c, hc | hc, hq⟩)
          · exact Or.inl (Or.inl hq)
          · subst hc; exact Or.inl (Or.inr hq)
          · exact Or.inr ⟨c, hc, hq⟩

/-- Building the name map preserves uniqueness of its keys. -/
theorem buildNameToFD_keys_nodup : ∀ (fds : List FD) (m m' : List (String × FD)),
    buildNameToFD fds m = .ok m' →
    (m.map Prod.fst).Nodup → (m'.map Prod.fst).Nodup := by
  intro fds
  induction fds with
  | nil =>
    intro m m' h hn
    rw [buildNameToFD] at h
    cases h
    exact hn
  | cons fd rest ih =>
    intro m m' h hn
    rw [buildNameToFD] at h
    by_cases hfp : fd.path = ""
    · simp [hfp] at h
    · rw [if_neg hfp] at h
      by_cases hfind : (m.find? (fun q => q.1 == fd.path)).isSome
      · simp [hfind] at h
      · rw [if_neg hfind] at h
        refine ih _ _ h ?_
        have hnone : m.find? (fun q => q.1 == fd.path) = none :=
          Option.not_isSome_iff_eq_none.1 hfind
        have hnotin : fd.path ∉ m.map Prod.fst := by
          intro hmem
          rw [List.mem_map] at hmem
          obtain ⟨q, hq, hq1⟩ := hmem
          have := List.find?_eq_none.1 hnone q hq
          simp [hq1] at this
        rw [List.map_append]
        rw [List.nodup_append]
        refine ⟨hn, by simp, ?_⟩
        intro a ha hb
        simp at hb
        rw [hb] at ha
        exact hnotin ha

/-- In a map with unique keys, `find?` on a member's key returns exactly that
member. -/
theorem find?_of_mem_nodup : ∀ (m : List (String × FD)) (q : String × FD),
    (m.map Prod.fst).Nodup → q ∈ m →
    m.find? (fun z => z.1 == q.1) = some q := by
  intro m
  induction m with
  | nil => intro q _ hq; simp at hq
  | cons a as ih =>
    intro q hn hq
    by_cases hkey : a.1 == q.1
    · have hkey' : a.1 = q.1 := by simpa using hkey
      have haq : a = q := by
        rcases List.mem_cons.1 hq with h | h
        · exact h.symm
        · exact List.inj_on_of_nodup_map hn (List.mem_cons_self _ _)
            (List.mem_cons_of_mem _ h) hkey'
      have hfind : (a :: as).find? (fun z => z.1 == q.1) = some a :=
        List.find?_cons_of_pos as hkey
      rw [hfind, haq]
    · have hq' : q ∈ as := by
        rcases List.mem_cons.1 hq with h | h
        · exfalso; rw [h] at hkey; simp at hkey
        · exact h
      have hfind : (a :: as).find? (fun z => z.1 == q.1) =
          as.find? (fun z => z.1 == q.1) :=
        List.find?_cons_of_neg as hkey
      rw [hfind]
      exact ih q (by rw [List.map_cons] at hn; exact hn.of_cons) hq'

/-- A successful `sortLoop` pairs each requested path with the mapped
descriptor, in request order. -/
theorem sortLoop_forall : ∀ (m : List (String × FD)) (ps : List String)
    (out : List FD), sortLoop m ps = .ok out →
    List.Forall₂ (fun p fd => m.find? (fun z => z.1 == p) = some (p, fd)) ps out := by
  intro m ps
  induction ps with
  | nil =>
    intro out h
    rw [sortLoop] at h
    cases h
    exact List.Forall₂.nil
  | cons p rest ih =>
    intro out h
    rw [sortLoop] at h
    cases hfind : m.find? (fun z => z.1 == p) with
    | none => rw [hfind] at h; cases h
    | some q =>
      rw [hfind] at h
      cases hrest : sortLoop m rest with
      | error e => rw [hrest] at h; cases h
      | ok out' =>
        rw [hrest] at h
        cases h
        have hq1 : q.1 = p := by
          have := List.find?_some hfind
          simpa using this
        obtain ⟨k, v⟩ := q
        simp only at hq1
        subst hq1
        exact List.Forall₂.cons hfind (ih out' hrest)

/-- A successful `checkAndSortFileDescriptors` returns descriptors whose path
sequence is exactly the requested path sequence. -/
theorem checkAndSort_map_path (fds : List FD) (ps : List String) (out : List FD)
    (h : checkAndSortFileDescriptors fds ps = .ok out) :
    out.map FD.path = ps := by
  rw [checkAndSortFileDescriptors] at h
  by_cases hl : fds.length ≠ ps.length
  · rw [if_pos hl] at h; cases h
  · rw [if_neg hl] at h
    cases hbuild : buildNameToFD fds [] with
    | error e => rw [hbuild] at h; cases h
    | ok m =>
      rw [hbuild] at h
      have hforall := sortLoop_forall m ps out h
      clear h hl
      induction hforall with
      | nil => rfl
      | @cons p fd ps' out' hpf hrest ih =>
        have hmem : (p, fd) ∈ m := List.mem_of_find?_eq_some hpf
        have := (buildNameToFD_mem fds [] m hbuild (p, fd)).1 hmem
        simp only [List.not_mem_nil, false_or] at this
        obtain ⟨c, _, hc⟩ := this
        have hfd : fd.path = p := by
          have h1 : p = c.path := congrArg Prod.fst hc
          have h2 : fd = c := congrArg Prod.snd hc
          rw [h2, h1]
        rw [List.map_cons, hfd, ih]

/-- The name maps built from permuted descriptor lists answer every `find?`
identically. -/
theorem buildNameToFD_find_perm (fds1 fds2 : List FD) (m1 m2 : List (String × FD))
    (hperm : fds1.Perm fds2)
    (h1 : buildNameToFD fds1 [] = .ok m1) (h2 : buildNameToFD fds2 [] = .ok m2) :
    ∀ p, m1.find? (fun z => z.1 == p) = m2.find? (fun z => z.1 == p) := by
  have hmemiff : ∀ q, q ∈ m1 ↔ q ∈ m2 := by
    intro q
    rw [buildNameToFD_mem fds1 [] m1 h1 q, buildNameToFD_mem fds2 [] m2 h2 q]
    simp only [List.not_mem_nil, false_or]
    constructor
    · rintro ⟨c, hc, hq⟩; exact ⟨c, hperm.mem_iff.1 hc, hq⟩
    · rintro ⟨c, hc, hq⟩; exact ⟨c, hperm.mem_iff.2 hc, hq⟩
  have hn1 : (m1.map Prod.fst).Nodup :=
    buildNameToFD_keys_nodup fds1 [] m1 h1 (by simp)
  have hn2 : (m2.map Prod.fst).Nodup :=
    buildNameToFD_keys_nodup fds2 [] m2 h2 (by simp)
  intro p
  cases hf1 : m1.find? (fun z => z.1 == p) with
  | some q =>
    have hqm1 : q ∈ m1 := List.mem_of_find?_eq_some hf1
    have hq1 : q.1 = p := by
      have := List.find?_some hf1
      simpa using this
    have hqm2 : q ∈ m2 := (hmemiff q).1 hqm1
    have := find?_of_mem_nodup m2 q hn2 hqm2
    rw [hq1] at this
    rw [this]
  | none =>
    cases hf2 : m2.find? (fun z => z.1 == p) with
    | none => rfl
    | some q =>
      exfalso
      have hqm2 : q ∈ m2 := List.mem_of_find?_eq_some hf2
      have hq1 : q.1 = p := by
        have := List.find?_some hf2
        simpa using this
      have hqm1 : q ∈ m1 := (hmemiff q).2 hqm2
      have := find?_of_mem_nodup m1 q hn1 hqm1
      rw [hq1] at this
      rw [this] at hf1
      cases hf1

/-- `sortLoop` only looks the map up through `find?`. -/
theorem sortLoop_congr (m1 m2 : List (String × FD))
    (h : ∀ p, m1.find? (fun z => z.1 == p) = m2.find? (fun z => z.1 == p)) :
    ∀ ps, sortLoop m1 ps = sortLoop m2 ps := by
  intro ps
  induction ps with
  | nil => rw [sortLoop, sortLoop]
  | cons p rest ih =>
    rw [sortLoop, sortLoop, h p, ih]

/-- Sorting permuted compiler outputs against the same requested paths gives
identical descriptor sequences. -/
theorem checkAndSort_perm_eq (fds1 fds2 : List FD) (ps : List String)
    (out1 out2 : List FD) (hperm : fds1.Perm fds2)
    (h1 : checkAndSortFileDescriptors fds1 ps = .ok out1)
    (h2 : checkAndSortFileDescriptors fds2 ps = .ok out2) :
    out1 = out2 := by
  rw [checkAndSortFileDescriptors] at h1 h2
  by_cases hl1 : fds1.length ≠ ps.length
  · rw [if_pos hl1] at h1; cases h1
  · rw [if_neg hl1] at h1
    by_cases hl2 : fds2.length ≠ ps.length
    · rw [if_pos hl2] at h2; cases h2
    · rw [if_neg hl2] at h2
      cases hb1 : buildNameToFD fds1 [] with
      | error e => rw [hb1] at h1; cases h1
      | ok m1 =>
        rw [hb1] at h1
        cases hb2 : buildNameToFD fds2 [] with
        | error e => rw [hb2] at h2; cases h2
        | ok m2 =>
          rw [hb2] at h2
          have h1' : sortLoop m1 ps = Except.ok out1 := h1
          have h2' : sortLoop m2 ps = Except.ok out2 := h2
          rw [sortLoop_congr m1 m2
            (buildNameToFD_find_perm fds1 fds2 m1 m2 hperm hb1 hb2) ps] at h1'
          rw [h1'] at h2'
          cases h2'
          rfl

/-- A passed per-index path check means the descriptor paths equal the
requested paths. -/
theorem checkPathsLoop_none : ∀ (fds : List FD) (ps : List String),
    fds.length = ps.length → checkPathsLoop fds ps = none →
    fds.map FD.path = ps := by
  intro fds
  induction fds with
  | nil =>
    intro ps hl _
    cases ps with
    | nil => rfl
    | cons p rest => simp at hl
  | cons fd rest ih =>
    intro ps hl h
    cases ps with
    | nil => simp at hl
    | cons p ps' =>
      rw [checkPathsLoop] at h
      by_cases hne : fd.path ≠ p
      · rw [if_pos hne] at h; cases h
      · rw [if_neg hne] at h
        push_neg at hne
        rw [List.map_cons, hne, ih ps' (by simpa using hl) h]

/-- Converting reported errors preserves their count. -/
theorem getFileAnnotations_ok_length (norm : String → Except String String) :
    ∀ (es : List ErrPos) (anns : List FileAnn),
    getFileAnnotations norm es = .ok anns → anns.length = es.length := by
  intro es
  induction es with
  | nil =>
    intro anns h
    rw [getFileAnnotations] at h
    cases h
    rfl
  | cons e rest ih =>
    intro anns h
    rw [getFileAnnotations] at h
    cases ha : getFileAnnot norm e with
    | error er => rw [ha] at h; cases h
    | ok a =>
      rw [ha] at h
      cases hrest : getFileAnnotations norm rest with
      | error er => rw [hrest] at h; cases h
      | ok as =>
        rw [hrest] at h
        cases h
        simp [ih as hrest]

/-- When normalization always succeeds, annotation conversion succeeds. -/
theorem getFileAnnotations_total (norm : String → Except String String)
    (hnorm : ∀ s, ∃ t, norm s = .ok t) :
    ∀ es : List ErrPos, ∃ anns, getFileAnnotations norm es = .ok anns := by
  intro es
  induction es with
  | nil => exact ⟨[], rfl⟩
  | cons e rest ih =>
    obtain ⟨anns, hanns⟩ := ih
    have ha : ∃ a, getFileAnnot norm e = .ok a := by
      rw [getFileAnnot]
      by_cases hfn : e.filename ≠ ""
      · rw [if_pos hfn]
        obtain ⟨t, ht⟩ := hnorm e.filename
        rw [ht]
        exact ⟨_, rfl⟩
      · rw [if_neg hfn]
        exact ⟨_, rfl⟩
    obtain ⟨a, ha⟩ := ha
    refine ⟨a :: anns, ?_⟩
    rw [getFileAnnotations, ha, hanns]

/-- Deduplicating and sorting a non-empty annotation list is non-empty. -/
theorem dedupSortFileAnns_ne_nil (l : List FileAnn) (h : l ≠ []) :
    dedupSortFileAnns l ≠ [] := by
  obtain ⟨a, ha⟩ := List.exists_mem_of_ne_nil l h
  have h1 : a ∈ List.insertionSort annLE l :=
    (List.perm_insertionSort annLE l).mem_iff.2 ha
  have h2 : a ∈ dedupSortFileAnns l := List.mem_dedup.2 h1
  exact List.ne_nil_of_mem h2

/-- C2: in every Image produced by the image builder from descriptors sorted
against the requested target paths (over a path-consistent descriptor
forest), each file path occurs exactly once, every file's imports appear in
the sequence strictly before the file that imports them, and a file is
flagged as an import if and only if its path was not one of the originally
requested target paths. -/
theorem image_postorder_unique_import_flags
    (sf : List String) (um : List (String × List String))
    (paths : List String) (fds sorted : List FD)
    (hsort : checkAndSortFileDescriptors fds paths = .ok sorted)
    (hcons : Consistent sorted) :
    (pathsOf (getImage sf um sorted)).Nodup ∧
    OrdBefore (getImage sf um sorted) ∧
    ∀ e ∈ getImage sf um sorted, e.isImport = !decide (e.fd.path ∈ paths) := by
  have hmem : ∀ c ∈ sorted, c ∈ allNodesList sorted ∧
      ∀ a ∈ ([] : List FD), c ∈ a.allNodes ∧ sizeOf c < sizeOf a := by
    intro c hc
    exact ⟨(mem_allNodesList_iff c sorted).2 ⟨c, hc, c.self_mem_allNodes⟩, by simp⟩
  have hordnil : OrdBefore [] := by
    intro pre e post heq
    exfalso
    cases pre <;> simp at heq
  have hpre : RecPre (sorted.map FD.path) [] [] [] :=
    ⟨by simp, by simp [pathsOf], by simp [pathsOf], hordnil, by simp⟩
  obtain ⟨post, _⟩ := getImageFilesRecList_spec sf um (sorted.map FD.path) sorted []
    sorted [] [] hcons hmem (by simp) hpre
  have himg : getImage sf um sorted =
      (getImageFilesRecList sf um (sorted.map FD.path) sorted [] []).2 := rfl
  refine ⟨by rw [himg]; exact post.nodup, by rw [himg]; exact post.ord, ?_⟩
  intro e he
  rw [← checkAndSort_map_path fds paths sorted hsort]
  rw [himg] at he
  exact post.flags e he

/-- Leaf descriptor for witnesses. -/
def fdZ : FD := .node "z.proto" []

/-- Mid-level descriptor importing `fdZ`. -/
def fdY : FD := .node "y.proto" [fdZ]

/-- Top-level descriptor importing `fdY`. -/
def fdX : FD := .node "x.proto" [fdY]

/-- Witness for `image_postorder_unique_import_flags` on the chain
`x.proto → y.proto → z.proto` with targets `x.proto, y.proto`. -/
theorem image_postorder_unique_import_flags_witness :
    (pathsOf (getImage [] [] [fdX, fdY])).Nodup ∧
    OrdBefore (getImage [] [] [fdX, fdY]) ∧
    ∀ e ∈ getImage [] [] [fdX, fdY],
      e.isImport = !decide (e.fd.path ∈ ["x.proto", "y.proto"]) :=
  image_postorder_unique_import_flags [] [] ["x.proto", "y.proto"] [fdY, fdX]
    [fdX, fdY] (by rfl) (by unfold Consistent; decide)

/-- The compiler signalled hard parse/link diagnostics: an
`ErrInvalidSource` with collected positioned errors, or a bare
`ErrorWithPos`. -/
def DiagProduced (co : CompilerRun) : Prop :=
  (co.result = some CompileErr.invalidSource ∧ co.errorsWithPos ≠ []) ∨
  ∃ e, co.result = some (CompileErr.withPos e)

/-- Under diagnostics, `getBuildResult` yields a non-empty annotation list
and no error. -/
theorem getBuildResult_diag (norm : String → Except String String)
    (paths : List String) (co : CompilerRun)
    (hnorm : ∀ s, ∃ t, norm s = .ok t) (hdiag : DiagProduced co) :
    ∃ a as, getBuildResult norm paths co = ⟨[], [], [], a :: as, none⟩ := by
  rcases hdiag with ⟨hinv, herr⟩ | ⟨e, hpos⟩
  · rcases hE : co.errorsWithPos with _ | ⟨e0, es⟩
    · exact absurd hE herr
    · obtain ⟨anns, hanns⟩ := getFileAnnotations_total norm hnorm (e0 :: es)
      have hlen : anns.length = (e0 :: es).length :=
        getFileAnnotations_ok_length norm (e0 :: es) anns hanns
      rcases anns with _ | ⟨a, as⟩
      · simp at hlen
      · refine ⟨a, as, ?_⟩
        rw [getBuildResult, hinv, hE, hanns]
        rfl
  · obtain ⟨anns, hanns⟩ := getFileAnnotations_total norm hnorm [e]
    have hlen : anns.length = [e].length :=
      getFileAnnotations_ok_length norm [e] anns hanns
    rcases anns with _ | ⟨a, as⟩
    · simp at hlen
    · refine ⟨a, as, ?_⟩
      have hdisp : getBuildResult norm paths co =
          match getFileAnnotations norm [e] with
          | .error er => ⟨[], [], [], [], some er⟩
          | .ok anns => ⟨[], [], [], anns, none⟩ := by
        rw [getBuildResult, hpos]
      rw [hdisp, hanns]

/-- One-step unfolding of `buildImage` for a self-contained bucket with a
non-empty target list. -/
theorem buildImage_unfold (norm : String → Except String String) (t : String)
    (ts : List String) (co : CompilerRun) :
    buildImage norm true (t :: ts) co =
      (match (getBuildResult norm (t :: ts) co).err with
       | some e => (none, [], some e)
       | none =>
         if !(getBuildResult norm (t :: ts) co).fileAnns.isEmpty then
           (none, dedupSortFileAnns (getBuildResult norm (t :: ts) co).fileAnns, none)
         else
           match checkAndSortFileDescriptors
               (getBuildResult norm (t :: ts) co).fileDescriptors (t :: ts) with
           | .error e => (none, [], some e)
           | .ok sorted =>
             (some (getImage (getBuildResult norm (t :: ts) co).synFiles
                (getBuildResult norm (t :: ts) co).unusedMap sorted), [], none)) := rfl

/-- C3: whenever compilation produces hard parse/link diagnostics,
`buildImage` returns a non-empty list of position-bearing annotations with a
nil top-level error and a nil Image; a non-nil top-level error is only
returned for non-diagnostic failures; and zero annotations with a nil error
means a built Image is returned. -/
theorem buildImage_diag_discipline
    (norm : String → Except String String) (targets : List String) (co : CompilerRun)
    (hnorm : ∀ s, ∃ t, norm s = .ok t)
    (htargets : targets ≠ []) :
    (DiagProduced co →
      (buildImage norm true targets co).2.1 ≠ [] ∧
      (buildImage norm true targets co).2.2 = none ∧
      (buildImage norm true targets co).1 = none) ∧
    ((buildImage norm true targets co).2.2 ≠ none → ¬ DiagProduced co) ∧
    (((buildImage norm true targets co).2.1 = [] ∧
      (buildImage norm true targets co).2.2 = none) →
      (buildImage norm true targets co).1 ≠ none) := by
  cases targets with
  | nil => exact absurd rfl htargets
  | cons t ts =>
    have key : DiagProduced co →
        (buildImage norm true (t :: ts) co).2.1 ≠ [] ∧
        (buildImage norm true (t :: ts) co).2.2 = none ∧
        (buildImage norm true (t :: ts) co).1 = none := by
      intro hdiag
      obtain ⟨a, as, hbr⟩ := getBuildResult_diag norm (t :: ts) co hnorm hdiag
      rw [buildImage_unfold, hbr]
      exact ⟨dedupSortFileAnns_ne_nil (a :: as) (List.cons_ne_nil a as), rfl, rfl⟩
    refine ⟨key, ?_, ?_⟩
    · intro herr hdiag
      exact herr (key hdiag).2.1
    · rintro ⟨hanns, herrn⟩
      rw [buildImage_unfold] at hanns herrn ⊢
      cases hres : (getBuildResult norm (t :: ts) co).err with
      | some e =>
        rw [hres] at herrn
        simp at herrn
      | none =>
        rw [hres] at hanns herrn
        cases hanns2 : (getBuildResult norm (t :: ts) co).fileAnns with
        | cons a as =>
          rw [hanns2] at hanns
          simp at hanns
          exact absurd hanns
            (dedupSortFileAnns_ne_nil (a :: as) (List.cons_ne_nil a as))
        | nil =>
          rw [hanns2] at herrn
          cases hsort : checkAndSortFileDescriptors
              (getBuildResult norm (t :: ts) co).fileDescriptors (t :: ts) with
          | error e =>
            rw [hsort] at herrn
            simp at herrn
          | ok sorted => simp

/-- Witness compiler run for `buildImage_diag_discipline`: a single
positioned compile error. -/
def diagRun : CompilerRun :=
  ⟨some (CompileErr.withPos ⟨"a.proto", 3, 7, WarnCause.other "boom"⟩), [], [], []⟩

/-- Witness for `buildImage_diag_discipline` at a concrete diagnostic run. -/
theorem buildImage_diag_discipline_witness :
    (buildImage (fun s => .ok s) true ["a.proto"] diagRun).2.1 ≠ [] ∧
    (buildImage (fun s => .ok s) true ["a.proto"] diagRun).2.2 = none ∧
    (buildImage (fun s => .ok s) true ["a.proto"] diagRun).1 = none :=
  (buildImage_diag_discipline (fun s => .ok s) ["a.proto"] diagRun
      (fun s => ⟨s, rfl⟩) (by simp)).1 (Or.inr ⟨_, rfl⟩)

/-- C4: the ordered path sequence of the Image is a deterministic function of
the requested paths, independent of compiler output order: after a clean
compile `getBuildResult` verifies the descriptor count and each descriptor's
path against the requested paths, `checkAndSortFileDescriptors` re-sorts the
descriptors into caller-requested path order, and permuted compiler outputs
(as produced by different parallel schedules) yield identical sorted
descriptor sequences and hence identical Image path sequences. -/
theorem image_order_deterministic
    (norm : String → Except String String) (paths : List String) (co : CompilerRun)
    (fds1 fds2 out1 out2 : List FD)
    (hperm : fds1.Perm fds2)
    (h1 : checkAndSortFileDescriptors fds1 paths = .ok out1)
    (h2 : checkAndSortFileDescriptors fds2 paths = .ok out2) :
    ((getBuildResult norm paths co).err = none →
      (getBuildResult norm paths co).fileAnns = [] →
      (getBuildResult norm paths co).fileDescriptors.map FD.path = paths) ∧
    out1.map FD.path = paths ∧
    out1 = out2 ∧
    ∀ sf um, pathsOf (getImage sf um out1) = pathsOf (getImage sf um out2) := by
  have heq : out1 = out2 := checkAndSort_perm_eq fds1 fds2 paths out1 out2 hperm h1 h2
  refine ⟨?_, checkAndSort_map_path fds1 paths out1 h1, heq, fun sf um => by rw [heq]⟩
  intro herr hfa
  cases hres : co.result with
  | some ce =>
    cases ce with
    | invalidSource =>
      rcases hE : co.errorsWithPos with _ | ⟨e0, es⟩
      · have : getBuildResult norm paths co = ⟨[], [], [], [],
            some "got invalid source error from parse but no errors reported"⟩ := by
          rw [getBuildResult, hres, hE]
          rfl
        rw [this] at herr
        cases herr
      · cases hanns : getFileAnnotations norm (e0 :: es) with
        | error e =>
          have : getBuildResult norm paths co = ⟨[], [], [], [], some e⟩ := by
            rw [getBuildResult, hres, hE, hanns]
            rfl
          rw [this] at herr
          cases herr
        | ok anns =>
          have hbr : getBuildResult norm paths co = ⟨[], [], [], anns, none⟩ := by
            rw [getBuildResult, hres, hE, hanns]
            rfl
          rw [hbr] at hfa
          have hlen := getFileAnnotations_ok_length norm (e0 :: es) anns hanns
          simp only at hfa
          rw [hfa] at hlen
          simp at hlen
    | withPos e =>
      have hdisp : getBuildResult norm paths co =
          match getFileAnnotations norm [e] with
          | .error er => ⟨[], [], [], [], some er⟩
          | .ok anns => ⟨[], [], [], anns, none⟩ := by
        rw [getBuildResult, hres]
      cases hanns : getFileAnnotations norm [e] with
      | error er =>
        rw [hdisp, hanns] at herr
        cases herr
      | ok anns =>
        rw [hdisp, hanns] at hfa
        have hlen := getFileAnnotations_ok_length norm [e] anns hanns
        simp only at hfa
        rw [hfa] at hlen
        simp at hlen
    | other m =>
      have : getBuildResult norm paths co = ⟨[], [], [], [], some m⟩ := by
        rw [getBuildResult, hres]
      rw [this] at herr
      cases herr
  | none =>
    rcases hE : co.errorsWithPos with _ | ⟨e0, es⟩
    · have hcond : ¬((!([] : List ErrPos).isEmpty) = true) := by simp
      by_cases hlen : co.compiledFiles.length ≠ paths.length
      · have : getBuildResult norm paths co = ⟨[], [], [], [],
            some "expected FileDescriptors to be of a different length"⟩ := by
          rw [getBuildResult, hres, hE, if_neg hcond, if_pos hlen]
        rw [this] at herr
        cases herr
      · cases hcheck : checkPathsLoop co.compiledFiles paths with
        | some er =>
          have : getBuildResult norm paths co = ⟨[], [], [], [], some er⟩ := by
            rw [getBuildResult, hres, hE, if_neg hcond, if_neg hlen, hcheck]
          rw [this] at herr
          cases herr
        | none =>
          have hbr : getBuildResult norm paths co =
              ⟨co.compiledFiles, (processWarnings co.warningsWithPos).1,
                (processWarnings co.warningsWithPos).2, [], none⟩ := by
            rw [getBuildResult, hres, hE, if_neg hcond, if_neg hlen, hcheck]
          rw [hbr]
          push_neg at hlen
          exact checkPathsLoop_none co.compiledFiles paths hlen hcheck
    · have hcond : (!((e0 :: es).isEmpty)) = true := by simp
      have : getBuildResult norm paths co = ⟨[], [], [], [],
          some "got no error from parse but errors reported"⟩ := by
        rw [getBuildResult, hres, hE, if_pos hcond]
      rw [this] at herr
      cases herr

/-- Witness for `image_order_deterministic`: two permuted compiler outputs
for the same requested paths. -/
theorem image_order_deterministic_witness :
    ((getBuildResult (fun s => .ok s) ["x.proto", "y.proto"]
        ⟨none, [fdX, fdY], [], []⟩).err = none →
      (getBuildResult (fun s => .ok s) ["x.proto", "y.proto"]
        ⟨none, [fdX, fdY], [], []⟩).fileAnns = [] →
      (getBuildResult (fun s => .ok s) ["x.proto", "y.proto"]
        ⟨none, [fdX, fdY], [], []⟩).fileDescriptors.map FD.path =
        ["x.proto", "y.proto"]) ∧
    ([fdX, fdY].map FD.path = ["x.proto", "y.proto"]) ∧
    ([fdX, fdY] = [fdX, fdY]) ∧
    ∀ sf um, pathsOf (getImage sf um [fdX, fdY]) =
      pathsOf (getImage sf um [fdX, fdY]) :=
  image_order_deterministic (fun s => .ok s) ["x.proto", "y.proto"]
    ⟨none, [fdX, fdY], [], []⟩ [fdY, fdX] [fdX, fdY] [fdX, fdY] [fdX, fdY]
    (List.Perm.swap fdX fdY []) (by rfl) (by rfl)

/-! ## Workspace resolution
(`private/buf/cmd/buf/command/migrate/migrate.go` workspaceProvider functions
and the `moduleTargeting` construction of `bufworkspace`).

Normalized relative paths are embedded as segment lists; `.` is the empty
list.  `normalpath.ContainsPath` / `EqualsOrContainsPath` / `Rel` are modelled
on segments with their documented prefix semantics. -/

/-- A normalized, `/`-separated relative path, as its list of segments. -/
abbrev Path : Type := List String

/-- Reflexive segment-prefix test. -/
def segPre : Path → Path → Bool
  | [], _ => true
  | _ :: _, [] => false
  | a :: as, b :: bs => a == b && segPre as bs

/-- `normalpath.ContainsPath value path Relative`: `value` strictly contains
`path`. -/
def containsPath (dir p : Path) : Bool := segPre dir p && !(dir == p)

/-- `normalpath.EqualsOrContainsPath value path Relative`. -/
def equalsOrContainsPath (dir p : Path) : Bool := dir == p || containsPath dir p

/-- The three config/lock file versions. -/
inductive FileVersion where
  | v1beta1
  | v1
  | v2
deriving Repr, DecidableEq

/-- Workspace-resolution errors, with a constructor per distinct error site. -/
inductive WErr where
  | sysNoTargetModules (subDir : Path) (dirs : List Path)
  | noTargetProtoFiles
  | conflictingDepRefs (newRef existingRef : String)
  | lockVersionForV2 (v : FileVersion)
  | targetPathIsModuleDir (p : Path)
  | excludePathIsModuleDir (p : Path)
  | relError
  | rootsError (p : Path)
deriving Repr, DecidableEq

/-- `normalpath.Rel dir p`: strip `dir` from the front of `p`. -/
def relPath (dir p : Path) : Except WErr Path :=
  if segPre dir p then .ok (p.drop dir.length) else .error .relError

/-- Modelled from the spec: `applyRootsToTargetPath` (in `bufworkspace`, not
among the sources) remaps a module-relative path through the configured
roots — "a path under root `rootA` keeps its remainder after stripping
`rootA`"; a path under no root (or ambiguously under several) is an error. -/
def applyRootsToTargetPath (roots : List Path) (p : Path) : Except WErr Path :=
  match roots.filter (fun r => equalsOrContainsPath r p) with
  | [r] => relPath r p
  | _ => .error (.rootsError p)

/-- The caller-supplied workspace bucket config: the targeted sub-directory
and the `--path` / `--exclude-path` style filters. -/
structure WorkspaceBucketConfig where
  targetSubDirPath : Path
  targetPaths : List Path
  targetExcludePaths : List Path
  protoFileTargetPath : Option Path
  includePackageFiles : Bool

/-- The result of `newModuleTargeting`. -/
structure ModuleTargeting where
  isTargetModule : Bool
  moduleTargetPaths : List Path
  moduleTargetExcludePaths : List Path
  moduleProtoFileTargetPath : Option Path
  includePackageFiles : Bool
deriving Repr, DecidableEq

/-- The `config.targetPaths` loop of `newModuleTargeting`: a target path
equal to the module directory is a hard error; contained paths are
rewritten relative to it and set the target hit flag. -/
def collectTargetPaths (moduleDirPath : Path) : List Path → Except WErr (Bool × List Path)
  | [] => .ok (false, [])
  | tp :: rest =>
    if tp = moduleDirPath then .error (.targetPathIsModuleDir tp)
    else if containsPath moduleDirPath tp then
      match relPath moduleDirPath tp with
      | .error e => .error e
      | .ok mp =>
        match collectTargetPaths moduleDirPath rest with
        | .error e => .error e
        | .ok hit => .ok (true, mp :: hit.2)
    else collectTargetPaths moduleDirPath rest

/-- The `config.targetExcludePaths` loop of `newModuleTargeting`. -/
def collectExcludePaths (moduleDirPath : Path) : List Path → Except WErr (List Path)
  | [] => .ok []
  | ep :: rest =>
    if ep = moduleDirPath then .error (.excludePathIsModuleDir ep)
    else if containsPath moduleDirPath ep then
      match relPath moduleDirPath ep with
      | .error e => .error e
      | .ok mp =>
        match collectExcludePaths moduleDirPath rest with
        | .error e => .error e
        | .ok ps => .ok (mp :: ps)
    else collectExcludePaths moduleDirPath rest

/-- Map `applyRootsToTargetPath` over a path list, failing fast. -/
def mapApplyRoots (roots : List Path) : List Path → Except WErr (List Path)
  | [] => .ok []
  | p :: rest =>
    match applyRootsToTargetPath roots p with
    | .error e => .error e
    | .ok p' =>
      match mapApplyRoots roots rest with
      | .error e => .error e
      | .ok ps => .ok (p' :: ps)

/-- `newModuleTargeting`: a non-tentatively-targeted module targets nothing;
otherwise the module is a target when no path filters were given, or when a
`--path` or proto-file target path falls under the module directory. -/
def newModuleTargeting (moduleDirPath : Path) (roots : List Path)
    (config : WorkspaceBucketConfig) (isTentativelyTargetModule : Bool) :
    Except WErr ModuleTargeting :=
  if !isTentativelyTargetModule then .ok ⟨false, [], [], none, false⟩
  else
    match collectTargetPaths moduleDirPath config.targetPaths with
    | .error e => .error e
    | .ok hit =>
      match collectExcludePaths moduleDirPath config.targetExcludePaths with
      | .error e => .error e
      | .ok epaths0 =>
        match mapApplyRoots roots hit.2 with
        | .error e => .error e
        | .ok tpaths =>
          match mapApplyRoots roots epaths0 with
          | .error e => .error e
          | .ok epaths =>
            let base := config.targetPaths.isEmpty && config.protoFileTargetPath.isNone
            match config.protoFileTargetPath with
            | some pf =>
              if containsPath moduleDirPath pf then
                match relPath moduleDirPath pf with
                | .error e => .error e
                | .ok pf0 =>
                  match applyRootsToTargetPath roots pf0 with
                  | .error e => .error e
                  | .ok pf1 =>
                    .ok ⟨true, tpaths, epaths, some pf1, config.includePackageFiles⟩
              else .ok ⟨base || hit.1, tpaths, epaths, none, false⟩
            | none => .ok ⟨base || hit.1, tpaths, epaths, none, false⟩

/-- One configured dependency reference: its `ModuleFullName` string and its
full `ModuleRef` string. -/
structure ModuleRefData where
  fullNameString : String
  refString : String
deriving Repr, DecidableEq

/-- A parsed `buf.lock` file: its version and its dependency keys. -/
structure LockFileData where
  fileVersion : FileVersion
  depModuleKeys : List String
deriving Repr, DecidableEq

/-- The per-module-directory data read during the v1 workspace loop: the
directory, the roots of its module config, its configured dependency refs,
and its `buf.lock` (none when reading gave `fs.ErrNotExist`). -/
structure DirInputV1 where
  moduleDirPath : Path
  roots : List Path
  configuredDepModuleRefs : List ModuleRefData
  bufLock : Option LockFileData
deriving Repr, DecidableEq

/-- The lock-file version switch of
`getWorkspaceForBucketAndModuleDirPathsV1Beta1OrV1`.  Note: the v2 case does
NOT error — in the source the error return is commented out behind a
`TODO: re-enable once we fix tests` comment, so a v2 buf.lock under a v1
buf.yaml is accepted. -/
def checkLockVersionV1 : FileVersion → Except WErr Unit
  | .v1beta1 => .ok ()
  | .v1 => .ok ()
  | .v2 => .ok ()

/-- The lock-file version switch of `getWorkspaceForBucketBufYAMLV2`: a
v1beta1 or v1 buf.lock under a v2 buf.yaml is a hard version-mismatch
error. -/
def checkLockVersionV2 : FileVersion → Except WErr Unit
  | .v1beta1 => .error (.lockVersionForV2 .v1beta1)
  | .v1 => .error (.lockVersionForV2 .v1)
  | .v2 => .ok ()

/-- Read the buf.lock of one module dir (v1 loop): absent is skipped, else
version-check then add the dependency keys as remote modules. -/
def lockDepsV1 (acc : List String) : Option LockFileData → Except WErr (List String)
  | none => .ok acc
  | some lf =>
    match checkLockVersionV1 lf.fileVersion with
    | .error e => .error e
    | .ok _ => .ok (acc ++ lf.depModuleKeys)

/-- The configured-dep-ref deduplication loop: an unseen `ModuleFullName` is
recorded with its ref; a seen one with a different ref is a conflicting-ref
error; a seen one with the same ref is skipped. -/
def addRefs (refMap : List (String × String)) (allRefs : List ModuleRefData) :
    List ModuleRefData → Except WErr (List (String × String) × List ModuleRefData)
  | [] => .ok (refMap, allRefs)
  | r :: rest =>
    match refMap.find? (fun q => q.1 == r.fullNameString) with
    | none =>
      addRefs (refMap ++ [(r.fullNameString, r.refString)]) (allRefs ++ [r]) rest
    | some q =>
      if r.refString ≠ q.2 then .error (.conflictingDepRefs r.refString q.2)
      else addRefs refMap allRefs rest

/-- The accumulating state of the v1 workspace loop. -/
structure WSV1State where
  refMap : List (String × String)
  allRefs : List ModuleRefData
  remoteDeps : List String
  localModules : List (Path × ModuleTargeting)
  hadTentative : Bool
  hadTarget : Bool

/-- One iteration of the v1 workspace loop over a module directory. -/
def processDirV1 (config : WorkspaceBucketConfig) (st : WSV1State) (d : DirInputV1) :
    Except WErr WSV1State :=
  match addRefs st.refMap st.allRefs d.configuredDepModuleRefs with
  | .error e => .error e
  | .ok refsOut =>
    match lockDepsV1 st.remoteDeps d.bufLock with
    | .error e => .error e
    | .ok remoteDeps =>
      let tentative := equalsOrContainsPath config.targetSubDirPath d.moduleDirPath
      match newModuleTargeting d.moduleDirPath d.roots config tentative with
      | .error e => .error e
      | .ok mt =>
        .ok ⟨refsOut.1, refsOut.2, remoteDeps,
          st.localModules ++ [(d.moduleDirPath, mt)],
          st.hadTentative || tentative,
          st.hadTarget || mt.isTargetModule⟩

/-- The v1 workspace loop. -/
def wsLoopV1 (config : WorkspaceBucketConfig) :
    List DirInputV1 → WSV1State → Except WErr WSV1State
  | [], st => .ok st
  | d :: rest, st =>
    match processDirV1 config st d with
    | .error e => .error e
    | .ok st' => wsLoopV1 config rest st'

/-- The assembled v1 workspace data. -/
structure WorkspaceV1 where
  localModules : List (Path × ModuleTargeting)
  remoteDeps : List String
  configuredDepModuleRefs : List ModuleRefData
  isV2 : Bool

/-- `getWorkspaceForBucketAndModuleDirPathsV1Beta1OrV1`: run the loop, then
the no-tentative-target system error, then the public no-target-files
error. -/
def getWorkspaceV1 (config : WorkspaceBucketConfig) (dirs : List DirInputV1) :
    Except WErr WorkspaceV1 :=
  match wsLoopV1 config dirs ⟨[], [], [], [], false, false⟩ with
  | .error e => .error e
  | .ok st =>
    if !st.hadTentative then
      .error (.sysNoTargetModules config.targetSubDirPath
        (dirs.map DirInputV1.moduleDirPath))
    else if !st.hadTarget then .error .noTargetProtoFiles
    else .ok ⟨st.localModules, st.remoteDeps, st.allRefs, false⟩

/-- The per-module-config data of the v2 loop. -/
structure DirInputV2 where
  moduleDirPath : Path
  roots : List Path
deriving Repr, DecidableEq

/-- The accumulating state of the v2 workspace loop. -/
structure WSV2State where
  localModules : List (Path × ModuleTargeting)
  hadTentative : Bool
  hadTarget : Bool

/-- One iteration of the v2 workspace loop over a module config. -/
def processDirV2 (config : WorkspaceBucketConfig) (st : WSV2State) (d : DirInputV2) :
    Except WErr WSV2State :=
  let tentative := equalsOrContainsPath config.targetSubDirPath d.moduleDirPath
  match newModuleTargeting d.moduleDirPath d.roots config tentative with
  | .error e => .error e
  | .ok mt =>
    .ok ⟨st.localModules ++ [(d.moduleDirPath, mt)],
      st.hadTentative || tentative,
      st.hadTarget || mt.isTargetModule⟩

/-- The v2 workspace loop. -/
def wsLoopV2 (config : WorkspaceBucketConfig) :
    List DirInputV2 → WSV2State → Except WErr WSV2State
  | [], st => .ok st
  | d :: rest, st =>
    match processDirV2 config st d with
    | .error e => .error e
    | .ok st' => wsLoopV2 config rest st'

/-- `getWorkspaceForBucketBufYAMLV2`: read the workspace-level buf.lock
(version-checked), loop over module configs, then the same two no-target
checks; the configured dep refs come deduplicated from the v2 buf.yaml. -/
def getWorkspaceV2 (config : WorkspaceBucketConfig) (bufLock : Option LockFileData)
    (configuredDepModuleRefs : List ModuleRefData) (dirs : List DirInputV2) :
    Except WErr WorkspaceV1 :=
  match (match bufLock with
         | none => Except.ok ([] : List String)
         | some lf =>
           match checkLockVersionV2 lf.fileVersion with
           | .error e => .error e
           | .ok _ => .ok lf.depModuleKeys) with
  | .error e => .error e
  | .ok remoteDeps =>
    match wsLoopV2 config dirs ⟨[], false, false⟩ with
    | .error e => .error e
    | .ok st =>
      if !st.hadTentative then
        .error (.sysNoTargetModules config.targetSubDirPath
          (dirs.map DirInputV2.moduleDirPath))
      else if !st.hadTarget then .error .noTargetProtoFiles
      else .ok ⟨st.localModules, remoteDeps, configuredDepModuleRefs, true⟩

/-- Config targeting everything (input sub-directory `.`, no path flags). -/
def cfgAll : WorkspaceBucketConfig := ⟨[], [], [], none, false⟩

/-- C5 evidence: the v2-config reader rejects a v1 (and v1beta1) buf.lock
with the version-mismatch error, but the v1-config reader ACCEPTS a v2
buf.lock (in the source that error return is commented out behind
`TODO: re-enable once we fix tests`), so the claimed both-directions hard
error does not hold on the code. -/
theorem lockfile_version_check_divergence :
    (∃ w, getWorkspaceV1 cfgAll
        [⟨["mod"], [[]], [], some ⟨FileVersion.v2, ["dep"]⟩⟩] = .ok w) ∧
    getWorkspaceV2 cfgAll (some ⟨FileVersion.v1, ["dep"]⟩) [] [⟨["mod"], [[]]⟩] =
      .error (WErr.lockVersionForV2 FileVersion.v1) ∧
    getWorkspaceV2 cfgAll (some ⟨FileVersion.v1beta1, ["dep"]⟩) [] [⟨["mod"], [[]]⟩] =
      .error (WErr.lockVersionForV2 FileVersion.v1beta1) :=
  ⟨⟨_, rfl⟩, rfl, rfl⟩

/-- `find?` ignores a right extension when it hits on the left. -/
theorem find?_append_some {α : Type} (p : α → Bool) (l1 l2 : List α) (a : α)
    (h : l1.find? p = some a) : (l1 ++ l2).find? p = some a := by
  induction l1 with
  | nil => rw [List.find?] at h; cases h
  | cons x xs ih =>
    rw [List.find?_cons] at h
    rw [List.cons_append, List.find?_cons]
    cases hp : p x with
    | true =>
      simp only [hp] at h ⊢
      exact h
    | false =>
      simp only [hp] at h ⊢
      exact ih h

/-- `find?` proceeds to the right extension when the left misses. -/
theorem find?_append_none {α : Type} (p : α → Bool) (l1 l2 : List α)
    (h : l1.find? p = none) : (l1 ++ l2).find? p = l2.find? p := by
  induction l1 with
  | nil => rfl
  | cons x xs ih =>
    rw [List.find?_cons] at h
    rw [List.cons_append, List.find?_cons]
    cases hp : p x with
    | true =>
      simp only [hp] at h
      cases h
    | false =>
      simp only [hp] at h ⊢
      exact ih h

/-- Look a full-name string up in the ref map. -/
def lookupRef (m : List (String × String)) (fn : String) : Option String :=
  (m.find? (fun q => q.1 == fn)).map Prod.snd

/-- What a successful `addRefs` run guarantees: the map stays the paired
image of the output ref list, lookups are preserved, every input ref is
resolvable to exactly its own ref string, and key uniqueness is kept. -/
theorem addRefs_ok_spec : ∀ (refs : List ModuleRefData)
    (refMap : List (String × String)) (allRefs : List ModuleRefData)
    (m' : List (String × String)) (a' : List ModuleRefData),
    refMap = allRefs.map (fun r => (r.fullNameString, r.refString)) →
    addRefs refMap allRefs refs = .ok (m', a') →
    (m' = a'.map (fun r => (r.fullNameString, r.refString))) ∧
    (∀ fn v, lookupRef refMap fn = some v → lookupRef m' fn = some v) ∧
    (∀ r ∈ refs, lookupRef m' r.fullNameString = some r.refString) ∧
    ((refMap.map Prod.fst).Nodup → (m'.map Prod.fst).Nodup) := by
  intro refs
  induction refs with
  | nil =>
    intro refMap allRefs m' a' hinv h
    rw [addRefs] at h
    cases h
    exact ⟨hinv, fun fn v hv => hv, by simp, fun hn => hn⟩
  | cons r rest ih =>
    intro refMap allRefs m' a' hinv h
    rw [addRefs] at h
    cases hfind : refMap.find? (fun q => q.1 == r.fullNameString) with
    | none =>
      rw [hfind] at h
      have hinv' : refMap ++ [(r.fullNameString, r.refString)] =
          (allRefs ++ [r]).map (fun r => (r.fullNameString, r.refString)) := by
        rw [List.map_append, hinv]
        rfl
      obtain ⟨q1, q2, q3, q4⟩ := ih _ _ m' a' hinv' h
      have hmono : ∀ fn v, lookupRef refMap fn = some v →
          lookupRef (refMap ++ [(r.fullNameString, r.refString)]) fn = some v := by
        intro fn v hv
        rw [lookupRef] at hv ⊢
        cases hf : refMap.find? (fun q => q.1 == fn) with
        | none => rw [hf] at hv; cases hv
        | some q =>
          rw [hf] at hv
          rw [find?_append_some _ _ _ q hf]
          exact hv
      refine ⟨q1, fun fn v hv => q2 fn v (hmono fn v hv), ?_, ?_⟩
      · intro r' hr'
        rcases List.mem_cons.1 hr' with hr' | hr'
        · subst hr'
          refine q2 _ _ ?_
          rw [lookupRef, find?_append_none _ _ _ hfind]
          rw [List.find?_cons]
          simp
        · exact q3 r' hr'
      · intro hn
        refine q4 ?_
        rw [List.map_append, List.nodup_append]
        refine ⟨hn, by simp, ?_⟩
        intro x hx hx'
        simp at hx'
        rw [hx'] at hx
        rw [List.mem_map] at hx
        obtain ⟨q, hq, hq1⟩ := hx
        have := List.find?_eq_none.1 hfind q hq
        simp [hq1] at this
    | some q =>
      rw [hfind] at h
      have h' : (if r.refString ≠ q.2 then
            (Except.error (WErr.conflictingDepRefs r.refString q.2) :
              Except WErr (List (String × String) × List ModuleRefData))
          else addRefs refMap allRefs rest) = .ok (m', a') := h
      by_cases hq : r.refString = q.2
      · rw [if_neg (not_not_intro hq)] at h'
        obtain ⟨q1, q2, q3, q4⟩ := ih _ _ m' a' hinv h'
        refine ⟨q1, q2, ?_, q4⟩
        intro r' hr'
        rcases List.mem_cons.1 hr' with hr' | hr'
        · subst hr'
          refine q2 _ _ ?_
          rw [lookupRef, hfind]
          simp [hq]
        · exact q3 r' hr'
      · rw [if_pos hq] at h'
        cases h'

/-- All configured dependency refs appearing across the workspace's module
directories, in loop order. -/
def allRefsOf (dirs : List DirInputV1) : List ModuleRefData :=
  dirs.flatMap DirInputV1.configuredDepModuleRefs

/-- The refs are functional: one ref string per full name. -/
def RefsFun (dirs : List DirInputV1) : Prop :=
  ∀ r1 ∈ allRefsOf dirs, ∀ r2 ∈ allRefsOf dirs,
    r1.fullNameString = r2.fullNameString → r1.refString = r2.refString

/-- Whether the loop tentatively targets a module directory. -/
def dirTentative (cfg : WorkspaceBucketConfig) (d : DirInputV1) : Bool :=
  equalsOrContainsPath cfg.targetSubDirPath d.moduleDirPath

/-- Whether a module directory ends up actually targeted. -/
def dirIsTarget (cfg : WorkspaceBucketConfig) (d : DirInputV1) : Bool :=
  match newModuleTargeting d.moduleDirPath d.roots cfg (dirTentative cfg d) with
  | .ok mt => mt.isTargetModule
  | .error _ => false

/-- The v1 lock version check never fails (the v2 rejection is commented out
in the source). -/
theorem checkLockVersionV1_ok (v : FileVersion) : checkLockVersionV1 v = .ok () := by
  cases v <;> rfl

/-- Reading a module directory's lock never fails in the v1 loop. -/
theorem lockDepsV1_ok (acc : List String) (o : Option LockFileData) :
    ∃ l, lockDepsV1 acc o = .ok l := by
  cases o with
  | none => exact ⟨acc, rfl⟩
  | some lf =>
    refine ⟨acc ++ lf.depModuleKeys, ?_⟩
    rw [lockDepsV1, checkLockVersionV1_ok]

/-- `addRefs` succeeds when the incoming refs are consistent with the
already-recorded refs and with one another, and its output refs all come
from one of the two. -/
theorem addRefs_ok_exists : ∀ (refs : List ModuleRefData)
    (refMap : List (String × String)) (allRefs : List ModuleRefData),
    refMap = allRefs.map (fun r => (r.fullNameString, r.refString)) →
    (∀ r ∈ refs, ∀ a ∈ allRefs,
      a.fullNameString = r.fullNameString → a.refString = r.refString) →
    (∀ r1 ∈ refs, ∀ r2 ∈ refs,
      r1.fullNameString = r2.fullNameString → r1.refString = r2.refString) →
    ∃ m' a', addRefs refMap allRefs refs = .ok (m', a') ∧
      ∀ x ∈ a', x ∈ allRefs ∨ x ∈ refs := by
  intro refs
  induction refs with
  | nil =>
    intro refMap allRefs hinv hcomp hpair
    exact ⟨refMap, allRefs, rfl, fun x hx => Or.inl hx⟩
  | cons r rest ih =>
    intro refMap allRefs hinv hcomp hpair
    cases hfind : refMap.find? (fun q => q.1 == r.fullNameString) with
    | none =>
      have hinv' : refMap ++ [(r.fullNameString, r.refString)] =
          (allRefs ++ [r]).map (fun r => (r.fullNameString, r.refString)) := by
        rw [List.map_append, hinv]
        rfl
      have hcomp' : ∀ r' ∈ rest, ∀ a ∈ allRefs ++ [r],
          a.fullNameString = r'.fullNameString → a.refString = r'.refString := by
        intro r' hr' a ha heq
        rcases List.mem_append.1 ha with ha | ha
        · exact hcomp r' (List.mem_cons_of_mem _ hr') a ha heq
        · rw [List.mem_singleton] at ha
          subst ha
          exact hpair a (List.mem_cons_self _ _) r' (List.mem_cons_of_mem _ hr') heq
      have hpair' : ∀ r1 ∈ rest, ∀ r2 ∈ rest,
          r1.fullNameString = r2.fullNameString → r1.refString = r2.refString :=
        fun r1 h1 r2 h2 => hpair r1 (List.mem_cons_of_mem _ h1) r2
          (List.mem_cons_of_mem _ h2)
      obtain ⟨m', a', hrec, hmem⟩ := ih _ _ hinv' hcomp' hpair'
      refine ⟨m', a', ?_, ?_⟩
      · rw [addRefs, hfind]
        exact hrec
      · intro x hx
        rcases hmem x hx with hx' | hx'
        · rcases List.mem_append.1 hx' with hx'' | hx''
          · exact Or.inl hx''
          · rw [List.mem_singleton] at hx''
            exact Or.inr (hx'' ▸ List.mem_cons_self _ _)
        · exact Or.inr (List.mem_cons_of_mem _ hx')
    | some q =>
      have hq1 : q.1 = r.fullNameString := by
        have := List.find?_some hfind
        simpa using this
      have hqmem : q ∈ refMap := List.mem_of_find?_eq_some hfind
      have hq2 : q.2 = r.refString := by
        rw [hinv] at hqmem
        rw [List.mem_map] at hqmem
        obtain ⟨a, ha, haq⟩ := hqmem
        have h1 : a.fullNameString = q.1 := by rw [← haq]
        have h2 : a.refString = q.2 := by rw [← haq]
        rw [← h2]
        exact hcomp r (List.mem_cons_self _ _) a ha (by rw [h1, hq1])
      have hcomp' : ∀ r' ∈ rest, ∀ a ∈ allRefs,
          a.fullNameString = r'.fullNameString → a.refString = r'.refString :=
        fun r' hr' a ha => hcomp r' (List.mem_cons_of_mem _ hr') a ha
      have hpair' : ∀ r1 ∈ rest, ∀ r2 ∈ rest,
          r1.fullNameString = r2.fullNameString → r1.refString = r2.refString :=
        fun r1 h1 r2 h2 => hpair r1 (List.mem_cons_of_mem _ h1) r2
          (List.mem_cons_of_mem _ h2)
      obtain ⟨m', a', hrec, hmem⟩ := ih _ _ hinv hcomp' hpair'
      refine ⟨m', a', ?_, fun x hx => (hmem x hx).imp id (List.mem_cons_of_mem _)⟩
      rw [addRefs, hfind]
      show (if r.refString ≠ q.2 then
          (Except.error (WErr.conflictingDepRefs r.refString q.2) :
            Except WErr (List (String × String) × List ModuleRefData))
        else addRefs refMap allRefs rest) = Except.ok (m', a')
      rw [if_neg (not_not_intro hq2.symm)]
      exact hrec

/-- `addRefs` only ever fails with a conflicting-ref error between two
distinct ref strings. -/
theorem addRefs_err_shape : ∀ (refs : List ModuleRefData)
    (refMap : List (String × String)) (allRefs : List ModuleRefData) (e : WErr),
    addRefs refMap allRefs refs = .error e →
    ∃ a b, a ≠ b ∧ e = .conflictingDepRefs a b := by
  intro refs
  induction refs with
  | nil =>
    intro refMap allRefs e h
    rw [addRefs] at h
    cases h
  | cons r rest ih =>
    intro refMap allRefs e h
    rw [addRefs] at h
    cases hfind : refMap.find? (fun q => q.1 == r.fullNameString) with
    | none =>
      rw [hfind] at h
      exact ih _ _ e h
    | some q =>
      rw [hfind] at h
      have h' : (if r.refString ≠ q.2 then
            (Except.error (WErr.conflictingDepRefs r.refString q.2) :
              Except WErr (List (String × String) × List ModuleRefData))
          else addRefs refMap allRefs rest) = .error e := h
      by_cases hq : r.refString = q.2
      · rw [if_neg (not_not_intro hq)] at h'
        exact ih _ _ e h'
      · rw [if_pos hq] at h'
        cases h'
        exact ⟨r.refString, q.2, hq, rfl⟩

/-- Pair a ref into its map entry. -/
def refPair (r : ModuleRefData) : String × String := (r.fullNameString, r.refString)

/-- One loop iteration succeeds under consistent refs and a successful
targeting computation, and updates the flags by or-ing in this directory's
tentative/actual targeting. -/
theorem processDirV1_ok_exists (cfg : WorkspaceBucketConfig) (st : WSV1State)
    (d : DirInputV1)
    (hinv : st.refMap = st.allRefs.map refPair)
    (hcomp : ∀ r ∈ d.configuredDepModuleRefs, ∀ a ∈ st.allRefs,
      a.fullNameString = r.fullNameString → a.refString = r.refString)
    (hpair : ∀ r1 ∈ d.configuredDepModuleRefs, ∀ r2 ∈ d.configuredDepModuleRefs,
      r1.fullNameString = r2.fullNameString → r1.refString = r2.refString)
    (htarg : ∃ mt, newModuleTargeting d.moduleDirPath d.roots cfg
      (dirTentative cfg d) = .ok mt) :
    ∃ st', processDirV1 cfg st d = .ok st' ∧
      st'.refMap = st'.allRefs.map refPair ∧
      (∀ x ∈ st'.allRefs, x ∈ st.allRefs ∨ x ∈ d.configuredDepModuleRefs) ∧
      st'.hadTentative = (st.hadTentative || dirTentative cfg d) ∧
      st'.hadTarget = (st.hadTarget || dirIsTarget cfg d) := by
  obtain ⟨m', a', haddr, hmem⟩ :=
    addRefs_ok_exists d.configuredDepModuleRefs st.refMap st.allRefs hinv hcomp hpair
  have hinv' : m' = a'.map refPair :=
    (addRefs_ok_spec d.configuredDepModuleRefs st.refMap st.allRefs m' a' hinv haddr).1
  obtain ⟨l, hlock⟩ := lockDepsV1_ok st.remoteDeps d.bufLock
  obtain ⟨mt, hmt⟩ := htarg
  have hmt' : newModuleTargeting d.moduleDirPath d.roots cfg
      (equalsOrContainsPath cfg.targetSubDirPath d.moduleDirPath) = .ok mt := hmt
  have htv : dirIsTarget cfg d = mt.isTargetModule := by
    rw [dirIsTarget, hmt]
  refine ⟨⟨m', a', l, st.localModules ++ [(d.moduleDirPath, mt)],
      st.hadTentative || dirTentative cfg d,
      st.hadTarget || mt.isTargetModule⟩, ?_, hinv', hmem, rfl, by rw [htv]⟩
  simp only [processDirV1, haddr, hlock, hmt']
  rfl

/-- The v1 workspace loop succeeds under functional refs and successful
targeting, and its final flags are the or over the directories. -/
theorem wsLoopV1_ok_exists (cfg : WorkspaceBucketConfig) :
    ∀ (dirs : List DirInputV1) (st : WSV1State),
    st.refMap = st.allRefs.map refPair →
    (∀ r ∈ allRefsOf dirs, ∀ a ∈ st.allRefs,
      a.fullNameString = r.fullNameString → a.refString = r.refString) →
    (∀ r1 ∈ allRefsOf dirs, ∀ r2 ∈ allRefsOf dirs,
      r1.fullNameString = r2.fullNameString → r1.refString = r2.refString) →
    (∀ d ∈ dirs, ∃ mt, newModuleTargeting d.moduleDirPath d.roots cfg
      (dirTentative cfg d) = .ok mt) →
    ∃ st', wsLoopV1 cfg dirs st = .ok st' ∧
      st'.hadTentative = (st.hadTentative || dirs.any (dirTentative cfg)) ∧
      st'.hadTarget = (st.hadTarget || dirs.any (dirIsTarget cfg)) := by
  intro dirs
  induction dirs with
  | nil =>
    intro st hinv hcomp hpair htarg
    exact ⟨st, rfl, by simp, by simp⟩
  | cons d rest ih =>
    intro st hinv hcomp hpair htarg
    have hsub : ∀ r ∈ d.configuredDepModuleRefs, r ∈ allRefsOf (d :: rest) := by
      intro r hr
      rw [allRefsOf, List.mem_flatMap]
      exact ⟨d, List.mem_cons_self _ _, hr⟩
    have hsubr : ∀ r ∈ allRefsOf rest, r ∈ allRefsOf (d :: rest) := by
      intro r hr
      rw [allRefsOf, List.mem_flatMap] at hr ⊢
      obtain ⟨d', hd', hr'⟩ := hr
      exact ⟨d', List.mem_cons_of_mem _ hd', hr'⟩
    obtain ⟨st1, hstep, hinv1, hmem1, hten1, htar1⟩ :=
      processDirV1_ok_exists cfg st d hinv
        (fun r hr a ha => hcomp r (hsub r hr) a ha)
        (fun r1 h1 r2 h2 => hpair r1 (hsub r1 h1) r2 (hsub r2 h2))
        (htarg d (List.mem_cons_self _ _))
    have hcomp1 : ∀ r ∈ allRefsOf rest, ∀ a ∈ st1.allRefs,
        a.fullNameString = r.fullNameString → a.refString = r.refString := by
      intro r hr a ha heq
      rcases hmem1 a ha with ha' | ha'
      · exact hcomp r (hsubr r hr) a ha' heq
      · exact hpair a (hsub a ha') r (hsubr r hr) heq
    obtain ⟨st', hrest, hten', htar'⟩ := ih st1 hinv1 hcomp1
      (fun r1 h1 r2 h2 => hpair r1 (hsubr r1 h1) r2 (hsubr r2 h2))
      (fun d' hd' => htarg d' (List.mem_cons_of_mem _ hd'))
    refine ⟨st', ?_, ?_, ?_⟩
    · rw [wsLoopV1, hstep]
      exact hrest
    · rw [hten', hten1, List.any_cons, Bool.or_assoc]
    · rw [htar', htar1, List.any_cons, Bool.or_assoc]

/-- A successful loop iteration runs `addRefs` successfully on this
directory's refs. -/
theorem processDirV1_ok_inv (cfg : WorkspaceBucketConfig) (st : WSV1State)
    (d : DirInputV1) (st' : WSV1State) (h : processDirV1 cfg st d = .ok st') :
    ∃ m' a', addRefs st.refMap st.allRefs d.configuredDepModuleRefs = .ok (m', a') ∧
      st'.refMap = m' ∧ st'.allRefs = a' := by
  simp only [processDirV1] at h
  cases haddr : addRefs st.refMap st.allRefs d.configuredDepModuleRefs with
  | error e =>
    simp only [haddr] at h
    cases h
  | ok p =>
    obtain ⟨m', a'⟩ := p
    simp only [haddr] at h
    cases hlock : lockDepsV1 st.remoteDeps d.bufLock with
    | error e =>
      simp only [hlock] at h
      cases h
    | ok l =>
      simp only [hlock] at h
      cases hmt : newModuleTargeting d.moduleDirPath d.roots cfg
          (equalsOrContainsPath cfg.targetSubDirPath d.moduleDirPath) with
      | error e =>
        simp only [hmt] at h
        cases h
      | ok mt =>
        simp only [hmt] at h
        cases h
        exact ⟨m', a', rfl, rfl, rfl⟩

/-- A successful run of the v1 loop records every encountered ref in its
final map, under its own name with its own ref string. -/
theorem wsLoopV1_refs_spec (cfg : WorkspaceBucketConfig) :
    ∀ (dirs : List DirInputV1) (st st' : WSV1State),
    wsLoopV1 cfg dirs st = .ok st' →
    st.refMap = st.allRefs.map refPair →
    (st'.refMap = st'.allRefs.map refPair) ∧
    (∀ fn v, lookupRef st.refMap fn = some v → lookupRef st'.refMap fn = some v) ∧
    (∀ r ∈ allRefsOf dirs, lookupRef st'.refMap r.fullNameString = some r.refString) ∧
    ((st.refMap.map Prod.fst).Nodup → (st'.refMap.map Prod.fst).Nodup) := by
  intro dirs
  induction dirs with
  | nil =>
    intro st st' h hinv
    rw [wsLoopV1] at h
    cases h
    exact ⟨hinv, fun fn v hv => hv, by simp [allRefsOf], fun hn => hn⟩
  | cons d rest ih =>
    intro st st' h hinv
    rw [wsLoopV1] at h
    cases hstep : processDirV1 cfg st d with
    | error e => rw [hstep] at h; cases h
    | ok st1 =>
      rw [hstep] at h
      obtain ⟨m', a', haddr, hrm, hra⟩ := processDirV1_ok_inv cfg st d st1 hstep
      obtain ⟨q1, q2, q3, q4⟩ :=
        addRefs_ok_spec d.configuredDepModuleRefs st.refMap st.allRefs m' a' hinv haddr
      have hinv1 : st1.refMap = st1.allRefs.map refPair := by
        rw [hrm, hra]
        exact q1
      obtain ⟨w1, w2, w3, w4⟩ := ih st1 st' h hinv1
      refine ⟨w1, ?_, ?_, ?_⟩
      · intro fn v hv
        refine w2 fn v ?_
        rw [hrm]
        exact q2 fn v hv
      · intro r hr
        rw [allRefsOf, List.mem_flatMap] at hr
        obtain ⟨d', hd', hr'⟩ := hr
        rcases List.mem_cons.1 hd' with hd' | hd'
        · subst hd'
          refine w2 _ _ ?_
          rw [hrm]
          exact q3 r hr'
        · exact w3 r (by rw [allRefsOf, List.mem_flatMap]; exact ⟨d', hd', hr'⟩)
      · intro hn
        refine w4 ?_
        rw [hrm]
        exact q4 hn

/-- Under successful targeting, the v1 loop can only fail with a
conflicting-ref error. -/
theorem wsLoopV1_err_shape (cfg : WorkspaceBucketConfig) :
    ∀ (dirs : List DirInputV1) (st : WSV1State) (e : WErr),
    (∀ d ∈ dirs, ∃ mt, newModuleTargeting d.moduleDirPath d.roots cfg
      (dirTentative cfg d) = .ok mt) →
    wsLoopV1 cfg dirs st = .error e →
    ∃ a b, a ≠ b ∧ e = .conflictingDepRefs a b := by
  intro dirs
  induction dirs with
  | nil =>
    intro st e _ h
    rw [wsLoopV1] at h
    cases h
  | cons d rest ih =>
    intro st e htarg h
    rw [wsLoopV1] at h
    cases hstep : processDirV1 cfg st d with
    | ok st1 =>
      rw [hstep] at h
      exact ih st1 e (fun d' hd' => htarg d' (List.mem_cons_of_mem _ hd')) h
    | error e' =>
      rw [hstep] at h
      cases h
      simp only [processDirV1] at hstep
      cases haddr : addRefs st.refMap st.allRefs d.configuredDepModuleRefs with
      | error ea =>
        simp only [haddr] at hstep
        cases hstep
        exact addRefs_err_shape d.configuredDepModuleRefs st.refMap st.allRefs _ haddr
      | ok p =>
        simp only [haddr] at hstep
        cases hlock : lockDepsV1 st.remoteDeps d.bufLock with
        | error el =>
          obtain ⟨l, hl⟩ := lockDepsV1_ok st.remoteDeps d.bufLock
          rw [hl] at hlock
          cases hlock
        | ok l =>
          simp only [hlock] at hstep
          obtain ⟨mt, hmt⟩ := htarg d (List.mem_cons_self _ _)
          have hmt' : newModuleTargeting d.moduleDirPath d.roots cfg
              (equalsOrContainsPath cfg.targetSubDirPath d.moduleDirPath) = .ok mt := hmt
          simp only [hmt'] at hstep
          cases hstep

/-- C6: workspace resolution distinguishes the two no-target failures: when
no module directory is even tentatively targeted the loop fails with the
system/invariant error naming the sub-directory; when some module is
tentatively targeted but none is actually targeted it fails with the
public-facing `ErrNoTargetProtoFiles`; the two errors are distinct values. -/
theorem workspace_no_target_errors_distinguishable
    (cfg1 cfg2 : WorkspaceBucketConfig) (dirs1 dirs2 : List DirInputV1)
    (hrefs1 : RefsFun dirs1) (hrefs2 : RefsFun dirs2)
    (h1 : ∀ d ∈ dirs1, dirTentative cfg1 d = false)
    (h2a : ∃ d ∈ dirs2, dirTentative cfg2 d = true)
    (h2b : ∀ d ∈ dirs2, dirIsTarget cfg2 d = false)
    (htarg2 : ∀ d ∈ dirs2, ∃ mt, newModuleTargeting d.moduleDirPath d.roots cfg2
      (dirTentative cfg2 d) = .ok mt) :
    getWorkspaceV1 cfg1 dirs1 =
      .error (.sysNoTargetModules cfg1.targetSubDirPath
        (dirs1.map DirInputV1.moduleDirPath)) ∧
    getWorkspaceV1 cfg2 dirs2 = .error .noTargetProtoFiles ∧
    WErr.sysNoTargetModules cfg1.targetSubDirPath
      (dirs1.map DirInputV1.moduleDirPath) ≠ WErr.noTargetProtoFiles := by
  have htarg1 : ∀ d ∈ dirs1, ∃ mt, newModuleTargeting d.moduleDirPath d.roots cfg1
      (dirTentative cfg1 d) = .ok mt := by
    intro d hd
    rw [h1 d hd]
    exact ⟨⟨false, [], [], none, false⟩, rfl⟩
  obtain ⟨st1, hok1, hten1, _⟩ := wsLoopV1_ok_exists cfg1 dirs1
    ⟨[], [], [], [], false, false⟩ rfl (by intro r hr a ha; simp at ha) hrefs1 htarg1
  obtain ⟨st2, hok2, hten2, htar2⟩ := wsLoopV1_ok_exists cfg2 dirs2
    ⟨[], [], [], [], false, false⟩ rfl (by intro r hr a ha; simp at ha) hrefs2 htarg2
  have hany1 : dirs1.any (dirTentative cfg1) = false := by
    rw [List.any_eq_false]
    intro d hd
    simp [h1 d hd]
  have hany2a : dirs2.any (dirTentative cfg2) = true := by
    rw [List.any_eq_true]
    obtain ⟨d, hd, h⟩ := h2a
    exact ⟨d, hd, by simp [h]⟩
  have hany2b : dirs2.any (dirIsTarget cfg2) = false := by
    rw [List.any_eq_false]
    intro d hd
    simp [h2b d hd]
  refine ⟨?_, ?_, fun h => WErr.noConfusion h⟩
  · simp [getWorkspaceV1, hok1, hten1, hany1]
  · simp [getWorkspaceV1, hok2, hten2, hany2a, htar2, hany2b]

/-- First no-target witness scenario: a sub-directory matching no module. -/
def cfgSub : WorkspaceBucketConfig := ⟨["sub"], [], [], none, false⟩

/-- Second no-target witness scenario: a `--path` filter under no module. -/
def cfgPathA : WorkspaceBucketConfig := ⟨[], [["a", "f.proto"]], [], none, false⟩

/-- Witness for `workspace_no_target_errors_distinguishable`. -/
theorem workspace_no_target_errors_distinguishable_witness :
    getWorkspaceV1 cfgSub [⟨["other"], [[]], [], none⟩] =
      .error (.sysNoTargetModules cfgSub.targetSubDirPath
        ([⟨["other"], [[]], [], none⟩].map DirInputV1.moduleDirPath)) ∧
    getWorkspaceV1 cfgPathA [⟨["b"], [[]], [], none⟩] =
      .error .noTargetProtoFiles ∧
    WErr.sysNoTargetModules cfgSub.targetSubDirPath
      ([(⟨["other"], [[]], [], none⟩ : DirInputV1)].map DirInputV1.moduleDirPath) ≠
      WErr.noTargetProtoFiles :=
  workspace_no_target_errors_distinguishable cfgSub cfgPathA
    [⟨["other"], [[]], [], none⟩] [⟨["b"], [[]], [], none⟩]
    (by intro r hr; simp [allRefsOf] at hr)
    (by intro r hr; simp [allRefsOf] at hr)
    (by decide)
    (by decide)
    (by decide)
    (by
      intro d hd
      rw [List.mem_singleton] at hd
      subst hd
      exact ⟨_, rfl⟩)

/-- C7: if the same `ModuleFullName` appears among the configured dependency
refs of the workspace's config files with two different refs, the build
fails with the explicit conflicting-ref error; equal refs for the same name
are deduplicated — a successful workspace carries each full name exactly
once, still paired with its (unique) ref string. -/
theorem workspace_conflicting_dep_refs
    (cfg : WorkspaceBucketConfig) (dirs : List DirInputV1)
    (htarg : ∀ d ∈ dirs, ∃ mt, newModuleTargeting d.moduleDirPath d.roots cfg
      (dirTentative cfg d) = .ok mt) :
    (∀ w, getWorkspaceV1 cfg dirs = .ok w →
      (w.configuredDepModuleRefs.map ModuleRefData.fullNameString).Nodup ∧
      ∀ r ∈ allRefsOf dirs, ∃ r' ∈ w.configuredDepModuleRefs,
        r'.fullNameString = r.fullNameString ∧ r'.refString = r.refString) ∧
    (∀ r1 ∈ allRefsOf dirs, ∀ r2 ∈ allRefsOf dirs,
      r1.fullNameString = r2.fullNameString → r1.refString ≠ r2.refString →
      ∃ a b, a ≠ b ∧
        getWorkspaceV1 cfg dirs = .error (.conflictingDepRefs a b)) := by
  constructor
  · intro w hw
    rw [getWorkspaceV1] at hw
    cases hrun : wsLoopV1 cfg dirs ⟨[], [], [], [], false, false⟩ with
    | error e => rw [hrun] at hw; simp at hw
    | ok st' =>
      rw [hrun] at hw
      have hw' : (if (!st'.hadTentative) = true then
            (Except.error (WErr.sysNoTargetModules cfg.targetSubDirPath
              (dirs.map DirInputV1.moduleDirPath)) : Except WErr WorkspaceV1)
          else if (!st'.hadTarget) = true then Except.error WErr.noTargetProtoFiles
          else Except.ok ⟨st'.localModules, st'.remoteDeps, st'.allRefs, false⟩) =
          Except.ok w := hw
      obtain ⟨q1, _, q3, q4⟩ :=
        wsLoopV1_refs_spec cfg dirs ⟨[], [], [], [], false, false⟩ st' hrun rfl
      cases htten : st'.hadTentative with
      | false => rw [htten] at hw'; simp at hw'
      | true =>
        rw [htten] at hw'
        cases httar : st'.hadTarget with
        | false => rw [httar] at hw'; simp at hw'
        | true =>
          rw [httar] at hw'
          rw [if_neg (by simp), if_neg (by simp)] at hw'
          cases hw'
          constructor
          · have hn := q4 (by simp)
            rw [q1, List.map_map] at hn
            exact hn
          · intro r hr
            have hl := q3 r hr
            rw [lookupRef] at hl
            rw [Option.map_eq_some'] at hl
            obtain ⟨q, hq, hq2⟩ := hl
            have hqmem : q ∈ st'.refMap := List.mem_of_find?_eq_some hq
            have hq1 : q.1 = r.fullNameString := by
              have := List.find?_some hq
              simpa using this
            rw [q1, List.mem_map] at hqmem
            obtain ⟨r', hr', hr'q⟩ := hqmem
            refine ⟨r', hr', ?_, ?_⟩
            · rw [← hq1, ← hr'q]
              rfl
            · rw [← hq2, ← hr'q]
              rfl
  · intro r1 h1 r2 h2 heq hne
    cases hrun : wsLoopV1 cfg dirs ⟨[], [], [], [], false, false⟩ with
    | ok st' =>
      exfalso
      obtain ⟨_, _, q3, _⟩ :=
        wsLoopV1_refs_spec cfg dirs ⟨[], [], [], [], false, false⟩ st' hrun rfl
      have hl1 := q3 r1 h1
      have hl2 := q3 r2 h2
      rw [heq, hl2] at hl1
      exact hne (Option.some.inj hl1).symm
    | error e =>
      obtain ⟨a, b, hab, he⟩ := wsLoopV1_err_shape cfg dirs
        ⟨[], [], [], [], false, false⟩ e htarg hrun
      refine ⟨a, b, hab, ?_⟩
      rw [getWorkspaceV1, hrun, he]

/-- The two conflicting-ref witness directories. -/
def dirRefA : DirInputV1 :=
  ⟨["m1"], [[]], [⟨"buf.build/o/m", "buf.build/o/m:abc"⟩], none⟩

/-- Second directory declaring the same module at a different ref. -/
def dirRefB : DirInputV1 :=
  ⟨["m2"], [[]], [⟨"buf.build/o/m", "buf.build/o/m:def"⟩], none⟩

/-- Witness for `workspace_conflicting_dep_refs` at a concrete conflict. -/
theorem workspace_conflicting_dep_refs_witness :
    (∀ w, getWorkspaceV1 cfgAll [dirRefA, dirRefB] = .ok w →
      (w.configuredDepModuleRefs.map ModuleRefData.fullNameString).Nodup ∧
      ∀ r ∈ allRefsOf [dirRefA, dirRefB], ∃ r' ∈ w.configuredDepModuleRefs,
        r'.fullNameString = r.fullNameString ∧ r'.refString = r.refString) ∧
    (∀ r1 ∈ allRefsOf [dirRefA, dirRefB], ∀ r2 ∈ allRefsOf [dirRefA, dirRefB],
      r1.fullNameString = r2.fullNameString → r1.refString ≠ r2.refString →
      ∃ a b, a ≠ b ∧
        getWorkspaceV1 cfgAll [dirRefA, dirRefB] =
          .error (.conflictingDepRefs a b)) :=
  workspace_conflicting_dep_refs cfgAll [dirRefA, dirRefB]
    (by
      intro d hd
      simp only [List.mem_cons, List.not_mem_nil, or_false] at hd
      rcases hd with rfl | rfl
      · exact ⟨_, rfl⟩
      · exact ⟨_, rfl⟩)

/-! ### C8: Upload validation (bufmoduleapi Upload, src/unnamed/part_005) -/

/-- ModuleFullName: registry hostname, owner, name. -/
structure ModuleFullName where
  registry : String
  owner : String
  name : String
deriving DecidableEq

/-- A module dependency as consulted by getProtoUploadRequestContent: only its
OpaqueID, IsLocal, ModuleFullName and CommitID are read. -/
structure UDep where
  opaqueID : String
  isLocal : Bool
  fullName : Option ModuleFullName
  commitID : Option String
deriving DecidableEq

/-- A module passed to Upload, with its dependency list (ModuleDeps). -/
structure UModule where
  opaqueID : String
  isLocal : Bool
  fullName : Option ModuleFullName
  deps : List UDep
deriving DecidableEq

/-- The errors Upload can return. -/
inductive UErr where
  | sysNonLocal (opaqueID : String)
  | requireFullName (opaqueID : String)
  | multipleRegistries (registries : List String)
  | indexOutOfRange
  | sysExpectedLocal
  | sysRequireFullName (opaqueID : String)
  | sysLocalDepNotScheduled (opaqueID : String)
  | sysNoCommitID (opaqueID : String)
  | transport (msg : String)
  | commitCountMismatch (expected got : Nat)
deriving DecidableEq

/-- Lexicographic less-than on character lists (byte comparison on strings). -/
def strLtB : List Char → List Char → Bool
  | [], [] => false
  | [], _ :: _ => true
  | _ :: _, [] => false
  | a :: as, b :: bs =>
    if a < b then true
    else if b < a then false
    else strLtB as bs

/-- String less-or-equal from the lexicographic order. -/
def strLe (a b : String) : Bool := !strLtB b.data a.data

def orderedInsertS (s : String) : List String → List String
  | [] => [s]
  | t :: ts => if strLe s t then s :: t :: ts else t :: orderedInsertS s ts

def sortStrings : List String → List String
  | [] => []
  | s :: ss => orderedInsertS s (sortStrings ss)

/-- slicesext.MapKeysToSortedSlice over the registry map: unique keys, sorted. -/
def sortedRegistries (regs : List String) : List String :=
  sortStrings regs.dedup

/-- The first validation loop of Upload: every module must be local
(syserror otherwise) and must carry a ModuleFullName (user-facing
newRequireModuleFullNameOnUploadError naming the module otherwise); its
registry hostname is collected. -/
def validateModulesLoop : List UModule → Except UErr (List String)
  | [] => .ok []
  | m :: rest =>
    if m.isLocal = false then .error (.sysNonLocal m.opaqueID)
    else
      match m.fullName with
      | none => .error (.requireFullName m.opaqueID)
      | some fn =>
        match validateModulesLoop rest with
        | .error e => .error e
        | .ok rs => .ok (fn.registry :: rs)

/-- One UploadRequest_Content, reduced to the fields the claims consult:
the module ref and the dep refs (full name plus optional commit id). -/
structure UContent where
  ref : ModuleFullName
  depRefs : List (ModuleFullName × Option String)
deriving DecidableEq

/-- The dep loop of getProtoUploadRequestContent: a dep without a
ModuleFullName is the user-facing require-name error naming the dep; a local
dep must be scheduled for upload; a remote dep must have a commit id. -/
def processDeps (uploadedIDs : List String) : List UDep →
    Except UErr (List (ModuleFullName × Option String))
  | [] => .ok []
  | d :: rest =>
    match d.fullName with
    | none => .error (.requireFullName d.opaqueID)
    | some fn =>
      if d.isLocal = true then
        if d.opaqueID ∈ uploadedIDs then
          match processDeps uploadedIDs rest with
          | .error e => .error e
          | .ok rs => .ok ((fn, none) :: rs)
        else .error (.sysLocalDepNotScheduled d.opaqueID)
      else
        match d.commitID with
        | none => .error (.sysNoCommitID d.opaqueID)
        | some cid =>
          match processDeps uploadedIDs rest with
          | .error e => .error e
          | .ok rs => .ok ((fn, some cid) :: rs)

/-- getProtoUploadRequestContent for one module. -/
def getContent (uploadedIDs : List String) (m : UModule) : Except UErr UContent :=
  if m.isLocal = false then .error .sysExpectedLocal
  else
    match m.fullName with
    | none => .error (.sysRequireFullName m.opaqueID)
    | some fn =>
      match processDeps uploadedIDs m.deps with
      | .error e => .error e
      | .ok rs => .ok ⟨fn, rs⟩

/-- slicesext.MapError: map, stopping at the first error. -/
def mapExcept {α β : Type} (f : α → Except UErr β) : List α → Except UErr (List β)
  | [] => .ok []
  | a :: rest =>
    match f a with
    | .error e => .error e
    | .ok b =>
      match mapExcept f rest with
      | .error e => .error e
      | .ok bs => .ok (b :: bs)

/-- registries[0], the single registry hostname selected after validation. -/
def registryOf (regs : List String) : String := (sortedRegistries regs).headD ""

/-- Upload: validate all modules (local, named) collecting registries; fail if
more than one registry; build the request contents; issue the one network call
through the client; check the commit count against the content count. -/
def upload (client : String → List UContent → Except String (List String))
    (modules : List UModule) : Except UErr (List String) :=
  match validateModulesLoop modules with
  | .error e => .error e
  | .ok regs =>
    if 1 < (sortedRegistries regs).length then
      .error (.multipleRegistries (sortedRegistries regs))
    else
      match sortedRegistries regs with
      | [] => .error .indexOutOfRange
      | registry :: _ =>
        match mapExcept (getContent (modules.map UModule.opaqueID)) modules with
        | .error e => .error e
        | .ok contents =>
          match client registry contents with
          | .error msg => .error (.transport msg)
          | .ok commits =>
            if commits.length ≠ contents.length then
              .error (.commitCountMismatch contents.length commits.length)
            else .ok commits

theorem validateModulesLoop_ok_length : ∀ (ms : List UModule) (regs : List String),
    validateModulesLoop ms = .ok regs → regs.length = ms.length := by
  intro ms
  induction ms with
  | nil => intro regs h; cases h; rfl
  | cons m rest ih =>
    intro regs h
    rw [validateModulesLoop] at h
    by_cases hl : m.isLocal = false
    · rw [if_pos hl] at h; cases h
    · rw [if_neg hl] at h
      cases hf : m.fullName with
      | none => simp only [hf] at h; cases h
      | some fn =>
        simp only [hf] at h
        cases hr : validateModulesLoop rest with
        | error e => simp only [hr] at h; cases h
        | ok rs =>
          simp only [hr] at h
          cases h
          simp [ih rs hr]

theorem validateModulesLoop_err_name : ∀ (ms : List UModule) (i : String),
    validateModulesLoop ms = .error (.requireFullName i) →
    ∃ m, m ∈ ms ∧ m.opaqueID = i ∧ m.fullName = none := by
  intro ms
  induction ms with
  | nil => intro i h; cases h
  | cons m rest ih =>
    intro i h
    rw [validateModulesLoop] at h
    by_cases hl : m.isLocal = false
    · rw [if_pos hl] at h; simp at h
    · rw [if_neg hl] at h
      cases hf : m.fullName with
      | none =>
        simp only [hf] at h
        cases h
        exact ⟨m, List.mem_cons_self m rest, rfl, hf⟩
      | some fn =>
        simp only [hf] at h
        cases hr : validateModulesLoop rest with
        | error e =>
          simp only [hr] at h
          cases h
          obtain ⟨m', hm', hi, hn⟩ := ih i hr
          exact ⟨m', List.mem_cons_of_mem m hm', hi, hn⟩
        | ok rs => simp only [hr] at h; cases h

theorem mapExcept_err_exists {α β : Type} (f : α → Except UErr β) :
    ∀ (ms : List α) (e : UErr), mapExcept f ms = .error e →
    ∃ m, m ∈ ms ∧ f m = .error e := by
  intro ms
  induction ms with
  | nil => intro e h; cases h
  | cons a rest ih =>
    intro e h
    rw [mapExcept] at h
    cases hf : f a with
    | error e1 =>
      simp only [hf] at h
      cases h
      exact ⟨a, List.mem_cons_self a rest, hf⟩
    | ok b =>
      simp only [hf] at h
      cases hr : mapExcept f rest with
      | error e1 =>
        simp only [hr] at h
        cases h
        obtain ⟨m, hm, hfm⟩ := ih _ hr
        exact ⟨m, List.mem_cons_of_mem a hm, hfm⟩
      | ok bs => simp only [hr] at h; cases h

theorem processDeps_err_requireName (ids : List String) :
    ∀ (ds : List UDep) (i : String),
    processDeps ids ds = .error (.requireFullName i) →
    ∃ d, d ∈ ds ∧ d.opaqueID = i ∧ d.fullName = none := by
  intro ds
  induction ds with
  | nil => intro i h; cases h
  | cons d rest ih =>
    intro i h
    rw [processDeps] at h
    cases hf : d.fullName with
    | none =>
      simp only [hf] at h
      cases h
      exact ⟨d, List.mem_cons_self d rest, rfl, hf⟩
    | some fn =>
      simp only [hf] at h
      by_cases hl : d.isLocal = true
      · rw [if_pos hl] at h
        by_cases hm : d.opaqueID ∈ ids
        · rw [if_pos hm] at h
          cases hr : processDeps ids rest with
          | error e =>
            simp only [hr] at h
            cases h
            obtain ⟨d', hd', hi, hn⟩ := ih i hr
            exact ⟨d', List.mem_cons_of_mem d hd', hi, hn⟩
          | ok rs => simp only [hr] at h; cases h
        · rw [if_neg hm] at h; simp at h
      · rw [if_neg hl] at h
        cases hc : d.commitID with
        | none => simp only [hc] at h; simp at h
        | some cid =>
          simp only [hc] at h
          cases hr : processDeps ids rest with
          | error e =>
            simp only [hr] at h
            cases h
            obtain ⟨d', hd', hi, hn⟩ := ih i hr
            exact ⟨d', List.mem_cons_of_mem d hd', hi, hn⟩
          | ok rs => simp only [hr] at h; cases h

theorem getContent_err_requireName (ids : List String) (m : UModule) (i : String)
    (h : getContent ids m = .error (.requireFullName i)) :
    ∃ d, d ∈ m.deps ∧ d.opaqueID = i ∧ d.fullName = none := by
  rw [getContent] at h
  by_cases hl : m.isLocal = false
  · rw [if_pos hl] at h; simp at h
  · rw [if_neg hl] at h
    cases hf : m.fullName with
    | none => simp only [hf] at h; simp at h
    | some fn =>
      simp only [hf] at h
      cases hr : processDeps ids m.deps with
      | error e =>
        simp only [hr] at h
        cases h
        exact processDeps_err_requireName ids m.deps i hr
      | ok rs => simp only [hr] at h; cases h

theorem orderedInsertS_length (s : String) : ∀ (l : List String),
    (orderedInsertS s l).length = l.length + 1 := by
  intro l
  induction l with
  | nil => rfl
  | cons t ts ih =>
    rw [orderedInsertS]
    by_cases h : strLe s t = true
    · rw [if_pos h]; rfl
    · rw [if_neg h]; simp [ih]

theorem sortStrings_length : ∀ (l : List String),
    (sortStrings l).length = l.length := by
  intro l
  induction l with
  | nil => rfl
  | cons s ss ih => rw [sortStrings, orderedInsertS_length, ih]; rfl

theorem sortedRegistries_ne_nil (regs : List String) (h : regs ≠ []) :
    sortedRegistries regs ≠ [] := by
  rw [sortedRegistries]
  intro hc
  have h1 : (sortStrings regs.dedup).length = 0 := by rw [hc]; rfl
  rw [sortStrings_length] at h1
  exact h ((List.dedup_eq_nil _).mp (List.length_eq_zero.mp h1))

/-- C8: Upload validates before the network. (1) If validation over the local
modules yields more than one registry hostname, every client observes the same
multiple-registries error, so no network call can have been issued. (2) If a
module lacks a ModuleFullName, every client observes the require-name error
carrying the OpaqueID of a module of the input whose full name is nil. (3) If a
dependency lacks a ModuleFullName, every client observes the require-name error
carrying the OpaqueID of such a dependency. (4) After the call, a commit count
differing from the content count is a hard error. -/
theorem upload_validation_before_network (modules : List UModule) :
    (∀ regs, validateModulesLoop modules = .ok regs →
      1 < (sortedRegistries regs).length →
      ∀ client, upload client modules =
        .error (.multipleRegistries (sortedRegistries regs)))
  ∧ (∀ i, validateModulesLoop modules = .error (.requireFullName i) →
      (∀ client, upload client modules = .error (.requireFullName i)) ∧
      ∃ m, m ∈ modules ∧ m.opaqueID = i ∧ m.fullName = none)
  ∧ (∀ regs i, validateModulesLoop modules = .ok regs →
      ¬ 1 < (sortedRegistries regs).length →
      mapExcept (getContent (modules.map UModule.opaqueID)) modules =
        .error (.requireFullName i) →
      (∀ client, upload client modules = .error (.requireFullName i)) ∧
      ∃ m, m ∈ modules ∧ ∃ d, d ∈ m.deps ∧ d.opaqueID = i ∧ d.fullName = none)
  ∧ (∀ regs contents client commits, modules ≠ [] →
      validateModulesLoop modules = .ok regs →
      ¬ 1 < (sortedRegistries regs).length →
      mapExcept (getContent (modules.map UModule.opaqueID)) modules = .ok contents →
      client (registryOf regs) contents = .ok commits →
      commits.length ≠ contents.length →
      upload client modules =
        .error (.commitCountMismatch contents.length commits.length)) := by
  refine ⟨?_, ?_, ?_, ?_⟩
  · intro regs hval hlen client
    simp only [upload, hval]
    rw [if_pos hlen]
  · intro i hval
    constructor
    · intro client
      simp only [upload, hval]
    · exact validateModulesLoop_err_name modules i hval
  · intro regs i hval hle hmap
    have hne : modules ≠ [] := by
      intro hm
      rw [hm] at hmap
      simp [mapExcept] at hmap
    have hregs : regs ≠ [] := by
      intro hr
      have hlen := validateModulesLoop_ok_length modules regs hval
      rw [hr] at hlen
      cases hmm : modules with
      | nil => exact hne hmm
      | cons a b => rw [hmm] at hlen; simp at hlen
    have hsne := sortedRegistries_ne_nil regs hregs
    constructor
    · intro client
      simp only [upload, hval]
      rw [if_neg hle]
      cases hsr : sortedRegistries regs with
      | nil => exact absurd hsr hsne
      | cons r rs1 => simp only [hmap]
    · obtain ⟨m, hm, hfm⟩ := mapExcept_err_exists _ modules _ hmap
      obtain ⟨d, hd, hi, hdf⟩ := getContent_err_requireName _ m i hfm
      exact ⟨m, hm, d, hd, hi, hdf⟩
  · intro regs contents client commits hne hval hle hmap hclient hcount
    have hregs : regs ≠ [] := by
      intro hr
      have hlen := validateModulesLoop_ok_length modules regs hval
      rw [hr] at hlen
      cases hmm : modules with
      | nil => exact hne hmm
      | cons a b => rw [hmm] at hlen; simp at hlen
    have hsne := sortedRegistries_ne_nil regs hregs
    cases hsr : sortedRegistries regs with
    | nil => exact absurd hsr hsne
    | cons r rs1 =>
      have hclient1 : client r contents = .ok commits := by
        rw [registryOf, hsr] at hclient
        exact hclient
      simp only [upload, hval]
      rw [if_neg hle]
      simp only [hsr, hmap, hclient1]
      rw [if_pos hcount]

def wFnA : ModuleFullName := ⟨"bsr.a", "owner", "mod"⟩

def wFnB : ModuleFullName := ⟨"bsr.b", "owner", "mod"⟩

def wModA : UModule := ⟨"modA", true, some wFnA, []⟩

def wModB : UModule := ⟨"modB", true, some wFnB, []⟩

def wClient : String → List UContent → Except String (List String) := fun _ _ => .ok []

/-- Witness for C8: two named local modules on two registries make Upload fail
with the multiple-registries error for every client. -/
theorem upload_validation_before_network_witness :
    upload wClient [wModA, wModB] =
      .error (.multipleRegistries (sortedRegistries ["bsr.a", "bsr.b"])) :=
  (upload_validation_before_network [wModA, wModB]).1 ["bsr.a", "bsr.b"]
    (by rfl) (by decide) wClient


/-! ### C9: moduleReadBucket.getIsTargetedFileForPath
(src/private/bufnew/bufmodule/module_read_bucket.go) -/

/-- Modelled from the spec: normalpath.MapHasEqualOrContainingPath over the
keys of a path map — true when some key equals the path or contains it. -/
def mapHasEqualOrContainingPath (keys : List Path) (p : Path) : Bool :=
  keys.any (fun k => equalsOrContainsPath k p)

/-- The fields of moduleReadBucket consulted by getIsTargetedFileForPath:
whether the owning module is a target, and the target / exclude path map keys. -/
structure MRBucket where
  isTargetModule : Bool
  targetPaths : List Path
  targetExcludePaths : List Path

/-- getIsTargetedFileForPath: false for an untargeted module, then the four-way
switch on emptiness of targetPathMap and targetExcludePathMap. -/
def getIsTargetedFileForPath (f : MRBucket) (p : Path) : Bool :=
  if f.isTargetModule = false then false
  else if f.targetPaths.length = 0 ∧ f.targetExcludePaths.length = 0 then true
  else if f.targetPaths.length = 0 ∧ f.targetExcludePaths.length ≠ 0 then
    !mapHasEqualOrContainingPath f.targetExcludePaths p
  else if f.targetPaths.length ≠ 0 ∧ f.targetExcludePaths.length = 0 then
    mapHasEqualOrContainingPath f.targetPaths p
  else
    mapHasEqualOrContainingPath f.targetPaths p &&
      !mapHasEqualOrContainingPath f.targetExcludePaths p

/-- Modelled from the spec: IsTargetFile is false when the owning module is
untargeted; true for all files when no target or exclude paths are configured;
otherwise true exactly when the path equals or is contained in some target path
(if any target paths exist) and neither equals nor is contained in any exclude
path. -/
def specIsTargetFile (f : MRBucket) (p : Path) : Bool :=
  if f.isTargetModule = false then false
  else if f.targetPaths = [] ∧ f.targetExcludePaths = [] then true
  else
    (if f.targetPaths = [] then true
     else f.targetPaths.any (fun k => equalsOrContainsPath k p)) &&
      f.targetExcludePaths.all (fun k => !equalsOrContainsPath k p)

theorem bool_not_any {α : Type} (g : α → Bool) : ∀ (l : List α),
    (!l.any g) = l.all (fun a => !g a) := by
  intro l
  induction l with
  | nil => rfl
  | cons a as ih => simp [List.any_cons, List.all_cons, Bool.not_or, ih]

/-- C9: the four-way switch of getIsTargetedFileForPath computes exactly the
spec's description of IsTargetFile: false for an untargeted module; true when
no filters are configured; otherwise matching some target path (when target
paths exist) and no exclude path. -/
theorem isTargetFile_matches_spec (f : MRBucket) (p : Path) :
    getIsTargetedFileForPath f p = specIsTargetFile f p := by
  rw [getIsTargetedFileForPath, specIsTargetFile]
  by_cases ht : f.isTargetModule = false
  · rw [if_pos ht, if_pos ht]
  · rw [if_neg ht, if_neg ht]
    cases htp : f.targetPaths with
    | nil =>
      cases hep : f.targetExcludePaths with
      | nil => simp
      | cons e es => simp [mapHasEqualOrContainingPath, bool_not_any]
    | cons t ts =>
      cases hep : f.targetExcludePaths with
      | nil => simp [mapHasEqualOrContainingPath]
      | cons e es => simp [mapHasEqualOrContainingPath, bool_not_any]

/-! ### C10: filteredModuleReadBucket
(src/private/bufnew/bufmodule/module_read_bucket.go) -/

/-- Go error values as consulted here: fs.ErrNotExist, a wrapping fs.PathError,
or any other error. -/
inductive GoErr where
  | pathError (op : String) (p : Path) (base : GoErr)
  | notExist
  | other (msg : String)
deriving DecidableEq

/-- errors.Is(err, fs.ErrNotExist): unwrap PathError down to the sentinel. -/
def isNotExist : GoErr → Bool
  | .pathError _ _ base => isNotExist base
  | .notExist => true
  | .other _ => false

/-- FileType: FileTypeProto, FileTypeDoc, FileTypeLicense. -/
inductive FileType where
  | proto
  | doc
  | license
deriving DecidableEq

/-- A FileInfo reduced to the fields the filtered bucket consults. -/
structure MFileInfo where
  path : Path
  fileType : FileType
deriving DecidableEq

/-- The delegate ModuleReadBucket: its stat and get functions and the file
infos its walk enumerates, all abstract. -/
structure Delegate where
  statFileInfo : Path → Except GoErr MFileInfo
  getFile : Path → Except GoErr String
  files : List MFileInfo

/-- filteredModuleReadBucket: a delegate plus the fileTypeMap key set. -/
structure FilteredBucket where
  delegate : Delegate
  fileTypes : List FileType

/-- filteredModuleReadBucket.StatFileInfo: stat the delegate, then return a
stat fs.PathError wrapping fs.ErrNotExist when the file type is filtered out. -/
def filteredStatFileInfo (f : FilteredBucket) (p : Path) : Except GoErr MFileInfo :=
  match f.delegate.statFileInfo p with
  | .error e => .error e
  | .ok fi =>
    if fi.fileType ∈ f.fileTypes then .ok fi
    else .error (.pathError "stat" p .notExist)

/-- filteredModuleReadBucket.GetFile: stat the filtered bucket (not the
delegate) first, then get from the delegate. -/
def filteredGetFile (f : FilteredBucket) (p : Path) : Except GoErr String :=
  match filteredStatFileInfo f p with
  | .error e => .error e
  | .ok _ => f.delegate.getFile p

/-- The wrapper WalkFileInfos passes to the delegate: skip (return nil) when
the file type is filtered out, otherwise call fn. -/
def filteredWalkFn (f : FilteredBucket) (fn : MFileInfo → Except GoErr Unit)
    (fi : MFileInfo) : Except GoErr Unit :=
  if fi.fileType ∈ f.fileTypes then fn fi else .ok ()

/-- A walk over a list of file infos, stopping at the first error. -/
def runWalk (fn : MFileInfo → Except GoErr Unit) : List MFileInfo → Except GoErr Unit
  | [] => .ok ()
  | fi :: rest =>
    match fn fi with
    | .error e => .error e
    | .ok _ => runWalk fn rest

/-- filteredModuleReadBucket.WalkFileInfos: walk the delegate's files through
the filtering wrapper. -/
def filteredWalkFileInfos (f : FilteredBucket) (fn : MFileInfo → Except GoErr Unit) :
    Except GoErr Unit :=
  runWalk (filteredWalkFn f fn) f.delegate.files

/-- The file infos the filtered walk actually hands to fn. -/
def walkVisited (f : FilteredBucket) : List MFileInfo :=
  f.delegate.files.filter (fun fi => decide (fi.fileType ∈ f.fileTypes))

theorem runWalk_filter (f : FilteredBucket) (fn : MFileInfo → Except GoErr Unit) :
    ∀ (l : List MFileInfo), runWalk (filteredWalkFn f fn) l =
      runWalk fn (l.filter (fun fi => decide (fi.fileType ∈ f.fileTypes))) := by
  intro l
  induction l with
  | nil => rfl
  | cons fi rest ih =>
    by_cases hm : fi.fileType ∈ f.fileTypes
    · rw [List.filter_cons_of_pos (by simp [hm])]
      rw [runWalk, runWalk, filteredWalkFn, if_pos hm]
      cases hfn : fn fi with
      | error e => rfl
      | ok u => exact ih
    · rw [List.filter_cons_of_neg (by simp [hm])]
      rw [runWalk, filteredWalkFn, if_neg hm]
      exact ih

/-- C10: on a path whose underlying file type is filtered out, StatFileInfo and
GetFile return a stat PathError satisfying the same not-exist condition as an
absent path, and the filtered walk hands fn exactly the delegate files whose
type is in the filter set — never a filtered-out file. -/
theorem filtered_bucket_not_exist (f : FilteredBucket) :
    (∀ p fi, f.delegate.statFileInfo p = .ok fi → fi.fileType ∉ f.fileTypes →
      filteredStatFileInfo f p = .error (.pathError "stat" p .notExist) ∧
      filteredGetFile f p = .error (.pathError "stat" p .notExist) ∧
      isNotExist (GoErr.pathError "stat" p GoErr.notExist) = true)
  ∧ (∀ fn, filteredWalkFileInfos f fn = runWalk fn (walkVisited f))
  ∧ (∀ fi, fi ∈ walkVisited f → fi.fileType ∈ f.fileTypes) := by
  refine ⟨?_, ?_, ?_⟩
  · intro p fi hstat hnot
    have h1 : filteredStatFileInfo f p = .error (.pathError "stat" p .notExist) := by
      simp only [filteredStatFileInfo, hstat]
      rw [if_neg hnot]
    refine ⟨h1, ?_, rfl⟩
    simp only [filteredGetFile, h1]
  · intro fn
    rw [filteredWalkFileInfos, walkVisited]
    exact runWalk_filter f fn f.delegate.files
  · intro fi hfi
    rw [walkVisited] at hfi
    have h2 := List.mem_filter.mp hfi
    exact of_decide_eq_true h2.2

def wDocInfo : MFileInfo := ⟨["README.md"], .doc⟩

def wDelegate : Delegate :=
  ⟨fun p => if p = ["README.md"] then .ok wDocInfo else .error .notExist,
   fun _ => .ok "contents",
   [wDocInfo]⟩

def wFiltered : FilteredBucket := ⟨wDelegate, [.proto]⟩

/-- Witness for C10: a doc file under a proto-only filter stats and gets as a
not-exist PathError. -/
theorem filtered_bucket_not_exist_witness :
    filteredStatFileInfo wFiltered ["README.md"] =
        .error (.pathError "stat" ["README.md"] .notExist) ∧
      filteredGetFile wFiltered ["README.md"] =
        .error (.pathError "stat" ["README.md"] .notExist) ∧
      isNotExist (GoErr.pathError "stat" ["README.md"] GoErr.notExist) = true :=
  (filtered_bucket_not_exist wFiltered).1 ["README.md"] wDocInfo (by rfl) (by decide)


end BufVerify
